import Mathlib

/-!
Verification development for the hybrid retrieval and score-fusion engine of
the repository (modules `ai_search/app/services/scoring.py` and
`ai_search/app/services/search_service.py`, configuration defaults from
`ai_search/config/settings.py`).

Python floats are modelled as exact rationals (`ℚ`); the transcendental
freshness score is modelled over `ℝ`.  Python code that can raise is modelled
with `Option`/`Except`.  Python's stable `sorted(..., reverse=True)` is
modelled by a stable insertion sort descending on the sort key, which computes
the same list as any stable descending sort.
-/

set_option maxRecDepth 4000

namespace AzureSearch

/-- Model of `math.isclose(a, b)` with CPython's default tolerances
(`rel_tol = 1e-9`, `abs_tol = 0.0`):
`|a-b| <= max(rel_tol * max(|a|,|b|), abs_tol)`. -/
def isclose (a b : ℚ) : Bool :=
  |a - b| ≤ 1 / 1000000000 * max |a| |b|

/-- Python's `min(vs)` on a non-empty list (fold of binary `min`). -/
def pymin (v : ℚ) (rest : List ℚ) : ℚ := rest.foldl min v

/-- Python's `max(vs)` on a non-empty list (fold of binary `max`). -/
def pymax (v : ℚ) (rest : List ℚ) : ℚ := rest.foldl max v

/-- Model of `scoring._minmax`: min and max of a list, `(0.0, 1.0)` for the empty list
or when min and max are `math.isclose`. -/
def minmax (vs : List ℚ) : ℚ × ℚ :=
  match vs with
  | [] => (0, 1)
  | v :: rest =>
    let vmin := pymin v rest
    let vmax := pymax v rest
    if isclose vmin vmax then (0, 1) else (vmin, vmax)

/-- Model of `scoring._norm`: min–max normalization of `v` against `bounds`. -/
def norm (v : ℚ) (bounds : ℚ × ℚ) : ℚ :=
  if isclose bounds.1 bounds.2 then 1 else (v - bounds.1) / (bounds.2 - bounds.1)

/-- Model of `max(bm25s) if bm25s else 0.0` (scoring.py line 162). -/
def maxOr0 (vs : List ℚ) : ℚ :=
  match vs with
  | [] => 0
  | v :: rest => pymax v rest

/-- A candidate row as consumed by `_fuse_scores`: the `_bm25`, `_semantic`,
`_vector`, `_business` and `_final` keys of the Python row dict. -/
structure Row where
  id : String
  bm25 : ℚ
  semantic : ℚ
  vector : ℚ
  business : ℚ
  final : ℚ
deriving DecidableEq, Repr

/-- The four fusion weights (`w_semantic`, `w_bm25`, `w_vector`,
`w_business`). -/
structure Weights where
  semantic : ℚ
  bm25 : ℚ
  vector : ℚ
  business : ℚ
deriving DecidableEq, Repr

/-- Model of `semantic_available = any(sem > 0.0 for sem in sems)` (scoring.py
line 139). -/
def semanticAvailable (rows : List Row) : Bool :=
  rows.any (fun r => decide (0 < r.semantic))

/-- Weight adjustment of `_fuse_scores` (scoring.py lines 141-152): when no
semantic score is positive, the semantic weight is zeroed and added onto the
vector weight; this happens for every entity type. -/
def adjustWeights (semAvail : Bool) (w : Weights) : Weights :=
  if semAvail then w else ⟨0, w.bm25, w.vector + w.semantic, w.business⟩

/-- Per-row BM25 normalization of `_fuse_scores` (scoring.py lines 164-170):
divide by the maximum raw score when semantic is unavailable and the maximum
is positive, otherwise min–max normalize against the whole candidate set. -/
def nbmValue (semAvail : Bool) (bm25s : List ℚ) (v : ℚ) : ℚ :=
  if !semAvail ∧ 0 < maxOr0 bm25s then v / maxOr0 bm25s
  else norm v (minmax bm25s)

/-- The `_final` recomputation of one row (scoring.py lines 164-185):
semantic, vector and business scores are passed through raw. -/
def recomputeFinal (semAvail : Bool) (bm25s : List ℚ) (w : Weights) (r : Row) : Row :=
  { r with final :=
      w.semantic * r.semantic +
      w.bm25 * nbmValue semAvail bm25s r.bm25 +
      w.vector * r.vector +
      w.business * r.business }

/-- Stable insertion into a list sorted descending by `key`: the inserted
element goes before the first strictly smaller key, after equal keys already
present (matching Python's stable `sorted(..., reverse=True)`). -/
def insertDescBy {α : Type} (key : α → ℚ) (x : α) : List α → List α
  | [] => [x]
  | y :: rest => if key x < key y then y :: insertDescBy key x rest else x :: y :: rest

/-- Stable sort descending by `key`.  Python's `sorted(..., reverse=True)` is
stable, and the stable descending reordering of a list is unique, so this
insertion sort computes exactly the list Python's sort returns. -/
def sortDescBy {α : Type} (key : α → ℚ) : List α → List α
  | [] => []
  | x :: rest => insertDescBy key x (sortDescBy key rest)

/-- Stable sort descending by `final` (`sorted(rows, key=lambda x:
x["_final"], reverse=True)`). -/
def sortFinalDesc (rows : List Row) : List Row := sortDescBy (fun r => r.final) rows

/-- Model of `scoring._fuse_scores`: recompute every row's `_final` from the raw
signal scores and the (possibly redistributed) weights, then sort descending
by `_final`.  The `entity_type` argument of the Python function is used only
for logging and is omitted. -/
def fuseScores (w : Weights) (rows : List Row) : List Row :=
  if rows = [] then []
  else
    let bm25s := rows.map (·.bm25)
    let semAvail := semanticAvailable rows
    let wAdj := adjustWeights semAvail w
    sortFinalDesc (rows.map (recomputeFinal semAvail bm25s wAdj))

/-- Default article weights from `settings.py`:
`WEIGHT_SEMANTIC=0.5, WEIGHT_BM25=0.3, WEIGHT_VECTOR=0.1,
WEIGHT_BUSINESS=0.1`. -/
def articleWeights : Weights := ⟨1/2, 3/10, 1/10, 1/10⟩

/-- Default author weights from `settings.py`:
`AUTHORS_WEIGHT_SEMANTIC=0.6, AUTHORS_WEIGHT_BM25=0.4,
AUTHORS_WEIGHT_VECTOR=0.0, AUTHORS_WEIGHT_BUSINESS=0.0`. -/
def authorWeights : Weights := ⟨3/5, 2/5, 0, 0⟩

/-- Model of `scoring.fuse_articles` with the default weight configuration. -/
def fuse_articles (rows : List Row) : List Row := fuseScores articleWeights rows

/-- Model of `scoring.fuse_authors` with the default weight configuration. -/
def fuse_authors (rows : List Row) : List Row := fuseScores authorWeights rows

/-!
`search_service.SearchService._apply_score_threshold` and the pagination
arithmetic of `_search_articles_planned` / `_search_authors_planned`.
-/

/-- Model of `_apply_score_threshold` (search_service.py lines 64-87): keep rows with
`_final >= threshold`, but only when filtering is enabled and the threshold is
positive.  Defaults in `settings.py`: `SCORE_THRESHOLD=0.0`,
`ENABLE_SCORE_FILTERING=True`. -/
def applyScoreThreshold (enabled : Bool) (threshold : ℚ) (results : List Row) : List Row :=
  if !enabled then results
  else if threshold ≤ 0 then results
  else results.filter (fun r => decide (threshold ≤ r.final))

/-- The pagination block returned by the planned search functions
(search_service.py lines 751-758). -/
structure Pagination where
  page_index : ℕ
  page_size : ℕ
  total_results : ℕ
  total_pages : ℕ
  has_next : Bool
  has_previous : Bool
deriving DecidableEq, Repr

/-- Threshold filtering followed by the pagination slice of
`_search_articles_planned` (search_service.py lines 732-758): filter the full
fused list, then return the slice `[page_index*page_size,
page_index*page_size + page_size)` together with the pagination metadata
(`total_pages = (total + page_size - 1) // page_size`). -/
def paginateFused (enabled : Bool) (threshold : ℚ) (fused : List Row)
    (page_index page_size : ℕ) : List Row × Pagination :=
  let filtered := applyScoreThreshold enabled threshold fused
  let total := filtered.length
  let start := page_index * page_size
  let stop := start + page_size
  ((filtered.drop start).take page_size,
   ⟨page_index, page_size, total, (total + page_size - 1) / page_size,
    decide (stop < total), decide (0 < page_index)⟩)

/-!
Chunk-hit aggregation by `parent_id` and the merge into the text-search rows
(`_search_articles_planned`, search_service.py lines 670-714).
-/

/-- A chunk document returned by the vector sub-query: `parent_id` is
`d.get("parent_id")` (the empty string standing for a missing/falsy value)
and `score` is `d.get("@search.score", 0.0)`. -/
structure ChunkHit where
  parent_id : String
  score : ℚ
deriving DecidableEq, Repr

/-- One step of building `parent_scores`: a falsy `parent_id` is skipped;
a known parent keeps the maximum of its chunk scores (in place, preserving
dict insertion order); a new parent is appended with its first score. -/
def updParentScores (acc : List (String × ℚ)) (pid : String) (s : ℚ) : List (String × ℚ) :=
  match acc with
  | [] => [(pid, s)]
  | (p, v) :: rest =>
    if p = pid then (p, max v s) :: rest else (p, v) :: updParentScores rest pid s

/-- Model of `parent_scores` (search_service.py lines 675-698): fold the chunk hits,
skipping hits whose `parent_id` is falsy, keeping per parent the maximum
chunk score.  Only the `_vector` entry of the per-parent dict is modelled;
the collected `chunks` list is not consulted by any later code. -/
def aggParents (hits : List ChunkHit) : List (String × ℚ) :=
  hits.foldl (fun acc d => if d.parent_id = "" then acc else updParentScores acc d.parent_id d.score) []

/-- Model of the dict comprehension building id_to_row from the text rows
(search_service.py line 670), keyed by each row's id: key order is the first
occurrence, the value is the last row with that id. -/
def buildIdToRow (rows : List Row) : List Row :=
  rows.foldl
    (fun acc r =>
      if acc.any (fun x => x.id = r.id) then acc.map (fun x => if x.id = r.id then r else x)
      else acc ++ [r])
    []

/-- The maximum of a list of chunk scores with the fold structure of the
source (`none` for no hits; first hit initializes, later hits combine by
`max`). -/
def chunkMax : List ℚ → Option ℚ
  | [] => none
  | v :: rest => some (pymax v rest)

/-- One chunk hit folded into a parent's running vector score: initialize on
the first hit, combine by `max` afterwards (search_service.py lines 684-696). -/
def omaxStep (o : Option ℚ) (s : ℚ) : Option ℚ :=
  some (o.elim s (fun v => max v s))

/-- Merging the parent-level vector scores into `id_to_row`
(search_service.py lines 700-714): an existing row's `_vector` becomes the
maximum of its current value and the aggregated chunk score; unknown parents
are appended as placeholder rows with only the vector score set. -/
def mergeVector (rows : List Row) (parents : List (String × ℚ)) : List Row :=
  parents.foldl
    (fun acc pv =>
      if acc.any (fun r => r.id = pv.1) then
        acc.map (fun r => if r.id = pv.1 then { r with vector := max r.vector pv.2 } else r)
      else acc ++ [⟨pv.1, 0, 0, pv.2, 0, 0⟩])
    rows

/-!
The semantic-capability flag and the text sub-query retry
(`_search_articles_planned.run_text_search`, search_service.py lines 514-623,
and `_test_semantic_search`, lines 297-323).
-/

/-- Outcome of one backend search call: success with rows, rejection with the
specific semantic-not-available `HttpResponseError`
(`SemanticQueriesNotAvailable` / `FeatureNotSupportedInService`), or any
other raised error. -/
inductive SearchOutcome where
  | ok (rows : List Row)
  | errSemanticNotAvailable
  | errOther
deriving DecidableEq, Repr

/-- The backend's behaviour for one request: the outcome of a semantic-mode
text query and the outcome of a simple (lexical-only) text query. -/
structure TextBackend where
  semantic : SearchOutcome
  lexical : SearchOutcome
deriving DecidableEq, Repr

/-- Model of `run_text_search` (search_service.py lines 514-623) as a state
transformer on the `semantic_enabled` flag.  Returns the flag value after the
call together with either the produced rows or an aborted request
(a propagated exception, modelled as `Except.error`).  When the flag is set
and the backend rejects the semantic query with the specific error, the flag
is set to `False` and the query is retried in lexical-only mode inside the
handler; any error of that retry propagates after the flag write.  Any other
error propagates immediately. -/
def runTextSearch (flag : Bool) (be : TextBackend) : Bool × Except Unit (List Row) :=
  if flag then
    match be.semantic with
    | .ok rows => (true, .ok rows)
    | .errSemanticNotAvailable =>
      (false, match be.lexical with
              | .ok rows => .ok rows
              | _ => .error ())
    | .errOther => (true, .error ())
  else
    (false, match be.lexical with
            | .ok rows => .ok rows
            | _ => .error ())

/-- The `semantic_enabled` flag threaded through a sequence of requests in
one process lifetime; after `__init__` no code path assigns `True`
(the only assignment is `self.semantic_enabled = False` on line 549). -/
def runRequests (flag : Bool) : List TextBackend → Bool
  | [] => flag
  | be :: rest => runRequests (runTextSearch flag be).1 rest

/-- The join barrier over the two concurrent sub-queries of
`_search_articles_planned` (search_service.py lines 663-668): both futures
are awaited; a raised error from either one propagates and aborts the whole
request (after any flag write the text path performed). -/
def runArticleSubqueries (flag : Bool) (be : TextBackend)
    (vec : Except Unit (List ChunkHit)) :
    Bool × Except Unit (List Row × List ChunkHit) :=
  let t := runTextSearch flag be
  (t.1, match t.2, vec with
        | .ok rows, .ok chunks => .ok (rows, chunks)
        | .error _, _ => .error ()
        | .ok _, .error _ => .error ())

/-!
The authors search path (`_search_authors_planned`, search_service.py
lines 404-434): fuzzy matches become candidate rows whose `_bm25` is the
fuzzy score and whose other signals are zero.
-/

/-- An author document: `id` and `full_name` as selected by
`_get_all_authors`. -/
structure Author where
  id : String
  full_name : String
deriving DecidableEq, Repr

/-- Conversion of fuzzy matches to fusion rows (search_service.py
lines 415-424): `_bm25` is the fuzzy score, `_semantic`, `_vector` and
`_business` are zero. -/
def authorRows (ms : List (Author × ℚ)) : List Row :=
  ms.map (fun m => ⟨m.1.id, m.2, 0, 0, 0, 0⟩)

/-!
Text normalization (`SearchService._normalize_text`, search_service.py
lines 127-153).  The Unicode NFD decomposition and removal of combining
marks are the identity on the ASCII fragment modelled here, and `Char.toLower`
agrees with Python's `str.lower` on ASCII.
-/

/-- The ASCII fragment of the regex class `\w` (`[a-zA-Z0-9_]`). -/
def isWordChar (c : Char) : Bool := c.isAlphanum || c = '_'

/-- The ASCII fragment of the regex class `\s`. -/
def isSpacey (c : Char) : Bool :=
  c = ' ' || c = '\t' || c = '\n' || c = '\r' || c = '\x0b' || c = '\x0c'

/-- Split a character list at every separator character (structural
reimplementation of `String.split`, keeping empty fragments). -/
def splitByAux (p : Char → Bool) : List Char → List Char → List (List Char)
  | [], acc => [acc.reverse]
  | c :: cs, acc =>
    if p c then acc.reverse :: splitByAux p cs [] else splitByAux p cs (c :: acc)

/-- Split a character list by a separator predicate. -/
def splitBy (p : Char → Bool) (l : List Char) : List (List Char) := splitByAux p l []

/-- Python's `str.split()` with no argument on the character level: split on
whitespace and drop empty fragments. -/
def wordsOfList (l : List Char) : List (List Char) :=
  (splitBy isSpacey l).filter (fun w => decide (w ≠ []))

/-- Join words with single spaces (`" ".join`). -/
def joinSpace : List (List Char) → List Char
  | [] => []
  | [w] => w
  | w :: ws => w ++ ' ' :: joinSpace ws

/-- Model of `_normalize_text`: lowercase, replace punctuation by spaces, collapse
whitespace runs to single spaces and strip the ends. -/
def normalize_text (text : String) : String :=
  let lowered := text.data.map Char.toLower
  let replaced := lowered.map (fun c => if isWordChar c || isSpacey c then c else ' ')
  ⟨joinSpace (wordsOfList replaced)⟩

/-- Python's `str.split()` with no argument: split on whitespace runs,
dropping empty fragments. -/
def wordsOf (s : String) : List String :=
  (wordsOfList s.data).map (fun w => ⟨w⟩)

/-- Python's substring test `s in t` (contiguous subsequence of
characters). -/
def substrOf (s t : String) : Bool := decide (List.IsInfix s.data t.data)

/-!
`difflib.SequenceMatcher(None, a, b).ratio()` from the CPython standard
library, used by `_fuzzy_match_authors`.  `isjunk` is `None`, so the junk
set is empty and the junk-only extension loops of `find_longest_match` never
fire; the autojunk "popular element" rule (active only when `len(b) >= 200`)
is modelled in `b2jList`.
-/

/-- The positions of character `c` in `b`, ascending — one entry of the
`b2j` index built by `SequenceMatcher.__chain_b`. -/
def positionsOf (b : List Char) (c : Char) : List ℕ :=
  (List.range b.length).filter (fun j => decide (b.get? j = some c))

/-- The `b2j` lookup with the autojunk rule: when `len(b) >= 200`, characters
occurring more than `len(b) // 100 + 1` times are dropped from the index. -/
def b2jList (b : List Char) (c : Char) : List ℕ :=
  let pos := positionsOf b c
  if 200 ≤ b.length ∧ b.length / 100 + 1 < pos.length then [] else pos

/-- The running best match of `find_longest_match`:
`besti, bestj, bestsize`. -/
structure FlmBest where
  besti : ℕ
  bestj : ℕ
  bestsize : ℕ
deriving DecidableEq, Repr

/-- The inner loop of `find_longest_match` over the column positions `js` of
one row `i`: `k = newj2len[j] = j2len.get(j-1, 0) + 1`, updating the best
match when `k > bestsize`.  The dictionaries `j2len` / `newj2len` are
modelled as total functions defaulting to `0`. -/
def flmRow (oldmap : ℕ → ℕ) (i : ℕ) : List ℕ → (ℕ → ℕ) → FlmBest → (ℕ → ℕ) × FlmBest
  | [], newmap, best => (newmap, best)
  | j :: js, newmap, best =>
    let k := if j = 0 then 1 else oldmap (j - 1) + 1
    flmRow oldmap i js (fun x => if x = j then k else newmap x)
      (if best.bestsize < k then ⟨i + 1 - k, j + 1 - k, k⟩ else best)

/-- The outer loop of `find_longest_match` over the rows `i` in
`range(alo, ahi)`; the columns of row `i` are the `b2j` entries of `a[i]`
restricted to `blo <= j < bhi` (the `continue`/`break` guards, on an
ascending list). -/
def flmRows (a b : List Char) (blo bhi : ℕ) : List ℕ → (ℕ → ℕ) → FlmBest → FlmBest
  | [], _, best => best
  | i :: is, j2len, best =>
    let js := (b2jList b (a.getD i ' ')).filter (fun j => decide (blo ≤ j) && decide (j < bhi))
    let rb := flmRow j2len i js (fun _ => 0) best
    flmRows a b blo bhi is rb.1 rb.2

/-- The left extension loop of `find_longest_match` (the junk set is empty,
so the condition is just the character comparison).  `fuel` is an upper bound
on the number of iterations; `besti` decreases by one per step, so starting
the fuel at `besti` is exact. -/
def extendLeft (a b : List Char) (alo blo : ℕ) : ℕ → FlmBest → FlmBest
  | 0, st => st
  | fuel + 1, st =>
    if alo < st.besti ∧ blo < st.bestj ∧
        a.getD (st.besti - 1) ' ' = b.getD (st.bestj - 1) ' ' then
      extendLeft a b alo blo fuel ⟨st.besti - 1, st.bestj - 1, st.bestsize + 1⟩
    else st

/-- The right extension loop of `find_longest_match`; `besti + bestsize`
grows by one per step and stays below `ahi`, so fuel `ahi` suffices. -/
def extendRight (a b : List Char) (ahi bhi : ℕ) : ℕ → FlmBest → FlmBest
  | 0, st => st
  | fuel + 1, st =>
    if st.besti + st.bestsize < ahi ∧ st.bestj + st.bestsize < bhi ∧
        a.getD (st.besti + st.bestsize) ' ' = b.getD (st.bestj + st.bestsize) ' ' then
      extendRight a b ahi bhi fuel ⟨st.besti, st.bestj, st.bestsize + 1⟩
    else st

/-- Model of `SequenceMatcher.find_longest_match(alo, ahi, blo, bhi)`: dynamic
programming over the rows, then the two non-junk extension loops (the two
junk-only loops never fire with `isjunk=None`). -/
def find_longest_match (a b : List Char) (alo ahi blo bhi : ℕ) : FlmBest :=
  let best := flmRows a b blo bhi (List.range' alo (ahi - alo)) (fun _ => 0) ⟨alo, blo, 0⟩
  let best := extendLeft a b alo blo best.besti best
  extendRight a b ahi bhi ahi best

/-- Total size of all matching blocks
(`sum(triple[-1] for triple in get_matching_blocks())`), written as the
recursion of `get_matching_blocks` on the two sub-ranges around the longest
match.  Each recursion level strictly shrinks `(ahi-alo) + (bhi-blo)`, so the
fuel `a.length + b.length + 1` used by `sm_matches` never runs out. -/
def msumF (a b : List Char) : ℕ → ℕ → ℕ → ℕ → ℕ → ℕ
  | 0, _, _, _, _ => 0
  | fuel + 1, alo, ahi, blo, bhi =>
    let m := find_longest_match a b alo ahi blo bhi
    if m.bestsize = 0 then 0
    else
      msumF a b fuel alo m.besti blo m.bestj + m.bestsize +
      msumF a b fuel (m.besti + m.bestsize) ahi (m.bestj + m.bestsize) bhi

/-- The number of matching characters used by `SequenceMatcher.ratio`. -/
def sm_matches (a b : List Char) : ℕ :=
  msumF a b (a.length + b.length + 1) 0 a.length 0 b.length

/-- Model of `SequenceMatcher.ratio()`: `2.0 * matches / (len(a) + len(b))`, and
`1.0` when both strings are empty (`difflib._calculate_ratio`). -/
def sm_ratio (a b : List Char) : ℚ :=
  if a.length + b.length = 0 then 1
  else 2 * (sm_matches a b : ℚ) / ((a.length : ℚ) + (b.length : ℚ))

/-!
The five scoring strategies of `_fuzzy_match_authors`
(search_service.py lines 835-918), on normalized strings.
-/

/-- Strategy 1: exact normalized match. -/
def exact_match_score (qn nn : String) : ℚ := if qn = nn then 1 else 0

/-- Strategy 2: whole-string `SequenceMatcher` similarity. -/
def full_similarity (qn nn : String) : ℚ := sm_ratio qn.data nn.data

/-- The inner `for name_word in name_words` loop of strategy 3: partial
credit `0.7` for a substring containment with length at least 3 on the
contained side's counterpart, else per-word similarity if at least `0.8`;
the first firing branch breaks the loop. -/
def wordLoop (qw : String) : List String → ℚ
  | [] => 0
  | nw :: rest =>
    if 3 ≤ qw.length ∧ substrOf qw nw = true then 7/10
    else if 3 ≤ nw.length ∧ substrOf nw qw = true then 7/10
    else if 4/5 ≤ sm_ratio qw.data nw.data then sm_ratio qw.data nw.data
    else wordLoop qw rest

/-- Credit of one query word: `1` for an exact token match, else the partial
credit of the inner loop. -/
def wordCredit (nws : List String) (qw : String) : ℚ :=
  if qw ∈ nws then 1 else wordLoop qw nws

/-- Strategy 3: word-based matching — total credit averaged over the number
of query words (and `0` when either word list is empty). -/
def word_match_score (qws nws : List String) : ℚ :=
  if qws ≠ [] ∧ nws ≠ [] then (qws.map (wordCredit nws)).sum / (qws.length : ℚ)
  else 0

/-- Strategy 4: substring containment, weighted by the length ratio.  When
both normalized strings are empty, the Python source divides by
`len(name_normalized) == 0` and raises `ZeroDivisionError`, modelled as
`none`. -/
def substring_score (qn nn : String) : Option ℚ :=
  if substrOf qn nn then
    if nn.length = 0 then none
    else some (9/10 * ((qn.length : ℚ) / (nn.length : ℚ)))
  else if substrOf nn qn then
    if qn.length = 0 then none
    else some (8/10 * ((nn.length : ℚ) / (qn.length : ℚ)))
  else some 0

/-- Strategy 5: initials matching — with at most 3 query words and at least
as many name words, each query word's first character must begin the
corresponding name word.  (Query words produced by `split` are never empty,
so `query_word[0]` cannot raise.) -/
def initials_score (qws nws : List String) : ℚ :=
  if qws.length ≤ 3 ∧ qws.length ≤ nws.length then
    if (qws.zip nws).all (fun p => decide (p.2.data.head? = p.1.data.head?)) then 7/10 else 0
  else 0

/-- The weighted maximum of the five strategies (search_service.py
lines 900-906): `max(exact*1.0, full*0.9, word*0.95, substring*0.85,
initials*0.7)`; `none` propagates the `ZeroDivisionError` of strategy 4. -/
def combined_score (qn nn : String) : Option ℚ :=
  (substring_score qn nn).map (fun ss =>
    let qws := wordsOf qn
    let nws := wordsOf nn
    max (exact_match_score qn nn)
      (max (full_similarity qn nn * (9/10))
        (max (word_match_score qws nws * (19/20))
          (max (ss * (17/20)) (initials_score qws nws * (7/10))))))

/-- The post-combination bonus (search_service.py lines 908-910): when the
combined score exceeds `0.5` and the normalized name is at most 5 characters
longer than the normalized query, multiply by `1.1` and cap at `1.0`. -/
def bonusScore (qn nn : String) (s : ℚ) : ℚ :=
  if 1/2 < s ∧ nn.length ≤ qn.length + 5 then min 1 (s * (11/10)) else s

/-- Final fuzzy score of one candidate on normalized strings. -/
def scoreAuthorNorm (qn nn : String) : Option ℚ :=
  (combined_score qn nn).map (bonusScore qn nn)

/-- Final fuzzy score of one candidate from the raw query and author. -/
def scoreAuthor (query : String) (a : Author) : Option ℚ :=
  scoreAuthorNorm (normalize_text query) (normalize_text a.full_name)

/-- The candidate loop of `_fuzzy_match_authors`: skip authors with a falsy
`full_name`, score the rest, keep scores above `0.2`; a `ZeroDivisionError`
in any scored candidate aborts the whole call (`none`). -/
def matchLoop (qn : String) : List Author → Option (List (Author × ℚ))
  | [] => some []
  | a :: rest =>
    if a.full_name = "" then matchLoop qn rest
    else
      match scoreAuthorNorm qn (normalize_text a.full_name) with
      | none => none
      | some s =>
        match matchLoop qn rest with
        | none => none
        | some ms => some (if 1/5 < s then (a, s) :: ms else ms)

/-- Model of `SearchService._fuzzy_match_authors(query, all_authors, k)`: empty input
short-circuits to `[]`; otherwise score all candidates, sort descending by
score (stable) and take the first `k`. -/
def fuzzy_match_authors (query : String) (authors : List Author) (k : ℕ) :
    Option (List (Author × ℚ)) :=
  if authors = [] then some []
  else (matchLoop (normalize_text query) authors).map
    (fun ms => (sortDescBy (fun p => p.2) ms).take k)

/-!
`scoring.business_freshness` (scoring.py lines 28-105).  Timestamps are
modelled as exact rational seconds since the Unix epoch, UTC.  The string
parser models `datetime.fromisoformat` restricted to the shapes
`YYYY-MM-DD` and `YYYY-MM-DDTHH:MM:SS` (after the source's space→`T`
replacement these also cover the three `strptime` formats the source tries);
CPython accepts further shapes, which only enlarges the set of parseable
inputs and is irrelevant to the claimed properties.  The final score uses
`Real.exp`, hence is noncomputable; the parser stays computable.
-/

/-- Gregorian leap year. -/
def isLeapYear (y : ℕ) : Bool := y % 4 = 0 ∧ (y % 100 ≠ 0 ∨ y % 400 = 0)

/-- Days in a month. -/
def monthLen (y m : ℕ) : ℕ :=
  if m = 2 then (if isLeapYear y then 29 else 28)
  else if m = 4 ∨ m = 6 ∨ m = 9 ∨ m = 11 then 30
  else 31

/-- Cumulative days before month `m` in a non-leap year. -/
def cumMonthDays (m : ℕ) : ℕ :=
  [0, 31, 59, 90, 120, 151, 181, 212, 243, 273, 304, 334].getD (m - 1) 0

/-- Python `date.toordinal()`: day number of `y-m-d` with `0001-01-01 = 1`. -/
def toOrdinal (y m d : ℕ) : ℕ :=
  365 * (y - 1) + (y - 1) / 4 - (y - 1) / 100 + (y - 1) / 400 +
    cumMonthDays m + (if 2 < m ∧ isLeapYear y then 1 else 0) + d

/-- Seconds since the Unix epoch of a civil UTC datetime
(`719163` is `date(1970,1,1).toordinal()`). -/
def civilToTs (y m d secs : ℕ) : ℚ :=
  ((toOrdinal y m d : ℤ) - 719163) * 86400 + secs

/-- Parse a non-empty all-digit fragment (structural reimplementation of
`String.toNat?` on a character list). -/
def digitsToNatAux : List Char → ℕ → Option ℕ
  | [], acc => some acc
  | c :: cs, acc =>
    if c.isDigit then digitsToNatAux cs (acc * 10 + (c.toNat - 48)) else none

/-- Semantics of `String.toNat?`: all characters are digits, non-empty. -/
def strToNat (l : List Char) : Option ℕ :=
  if l = [] then none else digitsToNatAux l 0

/-- Parse and validate a `YYYY-MM-DD` fragment. -/
def parseYMD (l : List Char) : Option (ℕ × ℕ × ℕ) :=
  match splitBy (fun c => c = '-') l with
  | [ys, ms, ds] =>
    if ys.length = 4 ∧ ms.length = 2 ∧ ds.length = 2 then
      match strToNat ys, strToNat ms, strToNat ds with
      | some y, some m, some d =>
        if 1 ≤ y ∧ 1 ≤ m ∧ m ≤ 12 ∧ 1 ≤ d ∧ d ≤ monthLen y m then some (y, m, d) else none
      | _, _, _ => none
    else none
  | _ => none

/-- Parse and validate a `HH:MM:SS` fragment into seconds within the day. -/
def parseHMS (l : List Char) : Option ℕ :=
  match splitBy (fun c => c = ':') l with
  | [hs, ms, ss] =>
    if hs.length = 2 ∧ ms.length = 2 ∧ ss.length = 2 then
      match strToNat hs, strToNat ms, strToNat ss with
      | some h, some mi, some sec =>
        if h ≤ 23 ∧ mi ≤ 59 ∧ sec ≤ 59 then some (h * 3600 + mi * 60 + sec) else none
      | _, _, _ => none
    else none
  | _ => none

/-- ISO-like parse of `YYYY-MM-DD` or `YYYY-MM-DDTHH:MM:SS`. -/
def parseIsoLike (l : List Char) : Option ℚ :=
  match splitBy (fun c => c = 'T') l with
  | [ds] => (parseYMD ds).map (fun ymd => civilToTs ymd.1 ymd.2.1 ymd.2.2 0)
  | [ds, ts] =>
    match parseYMD ds, parseHMS ts with
    | some ymd, some secs => some (civilToTs ymd.1 ymd.2.1 ymd.2.2 secs)
    | _, _ => none
  | _ => none

/-- Python `str.strip()` on the character level (ASCII whitespace). -/
def trimList (l : List Char) : List Char :=
  ((l.dropWhile isSpacey).reverse.dropWhile isSpacey).reverse

/-- Model of the replacement of spaces by a T separator: the pattern of
`s.replace` is a single character, so this is a
character map. -/
def spaceToT (l : List Char) : List Char :=
  l.map (fun c => if c = ' ' then 'T' else c)

/-- The string branch of `business_freshness` (scoring.py lines 61-88):
strip, try ISO-ish parse with space→`T` replacement, then the trailing-`Z`
(UTC) variant; `none` models the `return 0.0` on parse failure. -/
def parse_date_string (s0 : String) : Option ℚ :=
  let s := trimList s0.data
  match parseIsoLike (spaceToT s) with
  | some t => some t
  | none =>
    if s.getLast? = some 'Z' then parseIsoLike (spaceToT s.dropLast)
    else none

/-- A value passed as `business_date`: a number (epoch seconds or
milliseconds), a string, or an already-parsed datetime carrying its UTC
timestamp. -/
inductive DateAtom where
  | num (x : ℚ)
  | str (s : String)
  | dt (t : ℚ)
deriving DecidableEq, Repr

/-- The argument of `business_freshness`: `None`, a plain value, or a
document-like dict from which a timestamp field is extracted. -/
inductive DateInput where
  | noneV
  | atom (a : DateAtom)
  | dict (entries : List (String × DateAtom))
deriving DecidableEq, Repr

/-- Python truthiness of the argument (`if not business_date`): `None`, `0`,
the empty string and the empty dict are falsy; datetime objects are always
truthy. -/
def falsyInput : DateInput → Bool
  | .noneV => true
  | .atom (.num x) => x = 0
  | .atom (.str s) => s = ""
  | .atom (.dt _) => false
  | .dict entries => entries = []

/-- Parsing of a non-dict value: numbers above `1e12` are epoch milliseconds
(scoring.py lines 53-58), strings go through the string parser, datetimes
pass through. -/
def parseAtom (a : DateAtom) : Option ℚ :=
  match a with
  | .num x => some (if 1000000000000 < x then x / 1000 else x)
  | .str s => parse_date_string s
  | .dt t => some t

/-- The timestamp-key priority list for dict inputs (scoring.py line 47). -/
def dictKeys : List String := ["business_date", "updated_at", "created_at", "date"]

/-- Extract the value of the first priority key present in the dict. -/
def extractDictAtom (entries : List (String × DateAtom)) : Option DateAtom :=
  (dictKeys.filterMap (fun k => entries.lookup k)).head?

/-- The whole parsing pipeline of `business_freshness`: `none` exactly when
the source returns `0.0` early (falsy input, failed parse, or a dict without
any timestamp key, which leaves a non-datetime value). -/
def parse_business_date (input : DateInput) : Option ℚ :=
  if falsyInput input then none
  else
    match input with
    | .noneV => none
    | .atom a => parseAtom a
    | .dict entries =>
      match extractDictAtom entries with
      | some a => parseAtom a
      | none => none

/-- Default of `SETTINGS.freshness_halflife_days` (`FRESHNESS_HALFLIFE_DAYS=250`). -/
def freshnessHalflifeDays : ℚ := 250

/-- Model of `business_freshness`: `0.0` for missing/unparseable input, otherwise
`exp(-ln 2 / halflife * max(age_days, 0))` where
`age_days = (now - business_date).days` is the floor of the difference in
days.  Total — the source catches every exception and returns `0.0`. -/
noncomputable def business_freshness (input : DateInput) (now halflife : ℚ) : ℝ :=
  match parse_business_date input with
  | none => 0
  | some t => Real.exp (-(Real.log 2 / (halflife : ℝ)) * ((max (⌊(now - t) / 86400⌋) 0 : ℤ) : ℝ))

/-!
Proof-support predicates for the `find_longest_match` invariants.
-/

/-- Invariant of the `j2len` dictionary after processing the rows up to
(excluding) `idone`: a non-zero entry at `j` is a common-suffix length
bounded by the number of usable columns and rows. -/
def FlmInvMap (alo blo idone : ℕ) (m : ℕ → ℕ) : Prop :=
  ∀ j, m j ≠ 0 → blo ≤ j ∧ m j ≤ j + 1 - blo ∧ m j ≤ idone - alo

/-- Bounds of a best-match candidate: it denotes a block inside
`[alo, ahi) × [blo, bhi)`. -/
def FlmInvBest (alo ahi blo bhi : ℕ) (st : FlmBest) : Prop :=
  alo ≤ st.besti ∧ st.besti + st.bestsize ≤ ahi ∧
  blo ≤ st.bestj ∧ st.bestj + st.bestsize ≤ bhi

/-!
## Theorems

### The stable descending insertion sort
-/

theorem insertDescBy_perm {α : Type} (key : α → ℚ) (x : α) (l : List α) :
    (insertDescBy key x l).Perm (x :: l) := by
  induction l with
  | nil => simp [insertDescBy]
  | cons y rest ih =>
    simp only [insertDescBy]
    by_cases h : key x < key y
    · rw [if_pos h]
      exact (ih.cons y).trans (List.Perm.swap x y rest)
    · rw [if_neg h]

theorem sortDescBy_perm {α : Type} (key : α → ℚ) (l : List α) :
    (sortDescBy key l).Perm l := by
  induction l with
  | nil => simp [sortDescBy]
  | cons x rest ih =>
    simp only [sortDescBy]
    exact (insertDescBy_perm key x (sortDescBy key rest)).trans (ih.cons x)

theorem insertDescBy_pairwise {α : Type} (key : α → ℚ) (x : α) (l : List α)
    (h : l.Pairwise (fun a b => key b ≤ key a)) :
    (insertDescBy key x l).Pairwise (fun a b => key b ≤ key a) := by
  induction l with
  | nil => simp [insertDescBy]
  | cons y rest ih =>
    rw [List.pairwise_cons] at h
    simp only [insertDescBy]
    by_cases hxy : key x < key y
    · rw [if_pos hxy]
      rw [List.pairwise_cons]
      refine ⟨fun z hz => ?_, ih h.2⟩
      rcases List.mem_cons.mp ((insertDescBy_perm key x rest).mem_iff.mp hz) with hz1 | hz1
      · exact hz1 ▸ le_of_lt hxy
      · exact h.1 z hz1
    · rw [if_neg hxy]
      rw [List.pairwise_cons]
      refine ⟨fun z hz => ?_, List.pairwise_cons.mpr h⟩
      rcases List.mem_cons.mp hz with hz1 | hz1
      · exact hz1 ▸ not_lt.mp hxy
      · exact le_trans (h.1 z hz1) (not_lt.mp hxy)

theorem sortDescBy_pairwise {α : Type} (key : α → ℚ) (l : List α) :
    (sortDescBy key l).Pairwise (fun a b => key b ≤ key a) := by
  induction l with
  | nil => simp [sortDescBy]
  | cons x rest ih => exact insertDescBy_pairwise key x _ ih

theorem insertDescBy_of_le {α : Type} (key : α → ℚ) (x : α) (l : List α)
    (h : ∀ z ∈ l, key z ≤ key x) : insertDescBy key x l = x :: l := by
  cases l with
  | nil => rfl
  | cons y rest =>
    simp only [insertDescBy]
    rw [if_neg (not_lt.mpr (h y (List.mem_cons_self y rest)))]

theorem sortDescBy_of_pairwise {α : Type} (key : α → ℚ) (l : List α)
    (h : l.Pairwise (fun a b => key b ≤ key a)) : sortDescBy key l = l := by
  induction l with
  | nil => rfl
  | cons x rest ih =>
    rw [List.pairwise_cons] at h
    simp only [sortDescBy]
    rw [ih h.2, insertDescBy_of_le key x rest h.1]

/-!
### Python `min` / `max` folds
-/

theorem pymax_mem (v : ℚ) (rest : List ℚ) : pymax v rest ∈ v :: rest := by
  induction rest generalizing v with
  | nil => simp [pymax]
  | cons w r ih =>
    have h : pymax v (w :: r) = pymax (max v w) r := rfl
    rw [h]
    rcases List.mem_cons.mp (ih (max v w)) with h1 | h1
    · rcases max_choice v w with hc | hc
      · rw [h1, hc]; exact List.mem_cons_self _ _
      · rw [h1, hc]; exact List.mem_cons_of_mem _ (List.mem_cons_self _ _)
    · exact List.mem_cons_of_mem _ (List.mem_cons_of_mem _ h1)

theorem le_pymax (v : ℚ) (rest : List ℚ) : ∀ x ∈ v :: rest, x ≤ pymax v rest := by
  induction rest generalizing v with
  | nil =>
    intro x hx
    rw [List.mem_singleton] at hx
    exact hx ▸ le_refl v
  | cons w r ih =>
    intro x hx
    have h : pymax v (w :: r) = pymax (max v w) r := rfl
    rw [h]
    rcases List.mem_cons.mp hx with h1 | h1
    · rw [h1]
      exact le_trans (le_max_left v w) (ih (max v w) _ (List.mem_cons_self _ _))
    rcases List.mem_cons.mp h1 with h2 | h2
    · rw [h2]
      exact le_trans (le_max_right v w) (ih (max v w) _ (List.mem_cons_self _ _))
    · exact ih (max v w) x (List.mem_cons_of_mem _ h2)

theorem pymin_mem (v : ℚ) (rest : List ℚ) : pymin v rest ∈ v :: rest := by
  induction rest generalizing v with
  | nil => simp [pymin]
  | cons w r ih =>
    have h : pymin v (w :: r) = pymin (min v w) r := rfl
    rw [h]
    rcases List.mem_cons.mp (ih (min v w)) with h1 | h1
    · rcases min_choice v w with hc | hc
      · rw [h1, hc]; exact List.mem_cons_self _ _
      · rw [h1, hc]; exact List.mem_cons_of_mem _ (List.mem_cons_self _ _)
    · exact List.mem_cons_of_mem _ (List.mem_cons_of_mem _ h1)

theorem pymin_le (v : ℚ) (rest : List ℚ) : ∀ x ∈ v :: rest, pymin v rest ≤ x := by
  induction rest generalizing v with
  | nil =>
    intro x hx
    rw [List.mem_singleton] at hx
    exact hx ▸ le_refl v
  | cons w r ih =>
    intro x hx
    have h : pymin v (w :: r) = pymin (min v w) r := rfl
    rw [h]
    rcases List.mem_cons.mp hx with h1 | h1
    · rw [h1]
      exact le_trans (ih (min v w) _ (List.mem_cons_self _ _)) (min_le_left v w)
    rcases List.mem_cons.mp h1 with h2 | h2
    · rw [h2]
      exact le_trans (ih (min v w) _ (List.mem_cons_self _ _)) (min_le_right v w)
    · exact ih (min v w) x (List.mem_cons_of_mem _ h2)

theorem pymax_congr {v₁ v₂ : ℚ} {r₁ r₂ : List ℚ} (h : (v₁ :: r₁).Perm (v₂ :: r₂)) :
    pymax v₁ r₁ = pymax v₂ r₂ :=
  le_antisymm (le_pymax v₂ r₂ _ (h.mem_iff.mp (pymax_mem v₁ r₁)))
    (le_pymax v₁ r₁ _ (h.mem_iff.mpr (pymax_mem v₂ r₂)))

theorem pymin_congr {v₁ v₂ : ℚ} {r₁ r₂ : List ℚ} (h : (v₁ :: r₁).Perm (v₂ :: r₂)) :
    pymin v₁ r₁ = pymin v₂ r₂ :=
  le_antisymm (pymin_le v₁ r₁ _ (h.mem_iff.mpr (pymin_mem v₂ r₂)))
    (pymin_le v₂ r₂ _ (h.mem_iff.mp (pymin_mem v₁ r₁)))

theorem minmax_congr {l₁ l₂ : List ℚ} (h : l₁.Perm l₂) : minmax l₁ = minmax l₂ := by
  cases l₁ with
  | nil => rw [List.Perm.nil_eq h]
  | cons v₁ r₁ =>
    cases l₂ with
    | nil => exact absurd h.symm (by simp)
    | cons v₂ r₂ =>
      simp only [minmax]
      rw [pymin_congr h, pymax_congr h]

theorem maxOr0_congr {l₁ l₂ : List ℚ} (h : l₁.Perm l₂) : maxOr0 l₁ = maxOr0 l₂ := by
  cases l₁ with
  | nil => rw [List.Perm.nil_eq h]
  | cons v₁ r₁ =>
    cases l₂ with
    | nil => exact absurd h.symm (by simp)
    | cons v₂ r₂ =>
      simp only [maxOr0]
      exact pymax_congr h

theorem semanticAvailable_congr {l₁ l₂ : List Row} (h : l₁.Perm l₂) :
    semanticAvailable l₁ = semanticAvailable l₂ := by
  simp only [semanticAvailable]
  rw [Bool.eq_iff_iff]
  simp only [List.any_eq_true]
  constructor
  · rintro ⟨r, hr, hp⟩; exact ⟨r, h.mem_iff.mp hr, hp⟩
  · rintro ⟨r, hr, hp⟩; exact ⟨r, h.mem_iff.mpr hr, hp⟩

/-!
### The fusion function
-/

theorem recomputeFinal_idem (sa : Bool) (bs : List ℚ) (w : Weights) (r : Row) :
    recomputeFinal sa bs w (recomputeFinal sa bs w r) = recomputeFinal sa bs w r := rfl

theorem recomputeFinal_congr {bs₁ bs₂ : List ℚ} (sa : Bool) (w : Weights) (r : Row)
    (h1 : maxOr0 bs₁ = maxOr0 bs₂) (h2 : minmax bs₁ = minmax bs₂) :
    recomputeFinal sa bs₁ w r = recomputeFinal sa bs₂ w r := by
  simp only [recomputeFinal, nbmValue, h1, h2]

theorem map_recomputeFinal_bm25 (sa : Bool) (bs : List ℚ) (w : Weights) (rows : List Row) :
    (rows.map (recomputeFinal sa bs w)).map (fun r => r.bm25) = rows.map (fun r => r.bm25) := by
  rw [List.map_map]
  rfl

theorem semanticAvailable_map (sa : Bool) (bs : List ℚ) (w : Weights) (rows : List Row) :
    semanticAvailable (rows.map (recomputeFinal sa bs w)) = semanticAvailable rows := by
  simp only [semanticAvailable, List.any_map]
  rfl

theorem fuseScores_ne_nil (w : Weights) (rows : List Row) (h : rows ≠ []) :
    fuseScores w rows =
      sortFinalDesc (rows.map (recomputeFinal (semanticAvailable rows)
        (rows.map (fun r => r.bm25)) (adjustWeights (semanticAvailable rows) w))) := by
  simp only [fuseScores, if_neg h]

/-- C9: `fuse` is idempotent — fusing the output of `fuse` with the same
weights yields the identical list (same ordering, same `_final` values), and
fusing the empty row set returns the empty list without error. -/
theorem claim_C9_fuse_idempotent :
    (∀ w : Weights, fuseScores w [] = []) ∧
    (∀ (w : Weights) (rows : List Row),
      fuseScores w (fuseScores w rows) = fuseScores w rows) := by
  refine ⟨fun w => rfl, fun w rows => ?_⟩
  by_cases hrows : rows = []
  · subst hrows; rfl
  · have hout : fuseScores w rows =
        sortFinalDesc (rows.map (recomputeFinal (semanticAvailable rows)
          (rows.map (fun r => r.bm25)) (adjustWeights (semanticAvailable rows) w))) :=
      fuseScores_ne_nil w rows hrows
    set sa := semanticAvailable rows with hsa0
    set bs := rows.map (fun r => r.bm25) with hbs0
    set wA := adjustWeights sa w with hwA0
    set f := recomputeFinal sa bs wA with hf0
    set out := sortFinalDesc (rows.map f) with hout0
    have hperm : out.Perm (rows.map f) := sortDescBy_perm _ _
    have houtne : out ≠ [] := by
      intro h0
      apply hrows
      have hlen := hperm.length_eq
      rw [h0, List.length_nil, List.length_map] at hlen
      exact List.length_eq_zero.mp hlen.symm
    have hbs : (out.map (fun r => r.bm25)).Perm bs := by
      have h1 : (out.map (fun r => r.bm25)).Perm ((rows.map f).map (fun r => r.bm25)) :=
        hperm.map _
      rw [hf0, map_recomputeFinal_bm25] at h1
      exact h1
    have hsa : semanticAvailable out = sa := by
      rw [semanticAvailable_congr hperm, hf0, semanticAvailable_map]
    have hmax : maxOr0 (out.map (fun r => r.bm25)) = maxOr0 bs := maxOr0_congr hbs
    have hmm : minmax (out.map (fun r => r.bm25)) = minmax bs := minmax_congr hbs
    have hfix : ∀ r ∈ out, f r = r := by
      intro r hr
      rcases List.mem_map.mp (hperm.mem_iff.mp hr) with ⟨r₀, _, hr0⟩
      rw [← hr0, hf0]
      exact recomputeFinal_idem sa bs wA r₀
    have hfun : out.map (recomputeFinal (semanticAvailable out)
        (out.map (fun r => r.bm25)) (adjustWeights (semanticAvailable out) w)) = out.map f := by
      rw [hsa]
      apply List.map_congr_left
      intro r _
      rw [hf0]
      exact recomputeFinal_congr sa wA r hmax hmm
    have hid : out.map f = out := by
      rw [List.map_congr_left hfix]
      exact List.map_id' out
    rw [hout]
    calc fuseScores w out
        = sortFinalDesc (out.map (recomputeFinal (semanticAvailable out)
            (out.map (fun r => r.bm25)) (adjustWeights (semanticAvailable out) w))) :=
          fuseScores_ne_nil w out houtne
      _ = sortFinalDesc (out.map f) := by rw [hfun]
      _ = sortFinalDesc out := by rw [hid]
      _ = out := sortDescBy_of_pairwise _ _ (sortDescBy_pairwise _ _)

theorem recomputeFinal_final (sa : Bool) (bs : List ℚ) (w : Weights) (r : Row) :
    (recomputeFinal sa bs w r).final =
      w.semantic * r.semantic + w.bm25 * nbmValue sa bs r.bm25 +
      w.vector * r.vector + w.business * r.business := rfl

/-- C1: the source redistributes an unavailable semantic weight onto the
vector weight for **every** entity type (scoring.py line 146), including the
author path, even though the function's own docstring and the comment on
line 143 say the fallback for authors is BM25.  For articles the claimed
invariant `w_sem_eff + w_vector_eff = w_sem_config + w_vector_config` holds;
for authors `w_sem_eff + w_bm25_eff = 0 + 0.4 ≠ 0.6 + 0.4`, and fusing an
all-semantic-zero author row set gives the whole semantic mass to a row with
only a vector score. -/
theorem claim_C1_redistribution_always_to_vector :
    adjustWeights false articleWeights =
      ⟨0, articleWeights.bm25, articleWeights.vector + articleWeights.semantic,
        articleWeights.business⟩ ∧
    (adjustWeights false articleWeights).semantic + (adjustWeights false articleWeights).vector =
      articleWeights.semantic + articleWeights.vector ∧
    adjustWeights false authorWeights =
      ⟨0, authorWeights.bm25, authorWeights.vector + authorWeights.semantic,
        authorWeights.business⟩ ∧
    (adjustWeights false authorWeights).semantic + (adjustWeights false authorWeights).bm25 ≠
      authorWeights.semantic + authorWeights.bm25 ∧
    semanticAvailable [⟨"r1", 0, 0, 1, 0, 0⟩, ⟨"r2", 1, 0, 0, 0, 0⟩] = false ∧
    (fuse_authors [⟨"r1", 0, 0, 1, 0, 0⟩, ⟨"r2", 1, 0, 0, 0, 0⟩]).map
        (fun r => (r.id, r.final)) = [("r1", 3/5), ("r2", 2/5)] := by
  with_unfolding_all decide

/-- C3 (counterexample): with one candidate row whose raw BM25 score is `5`
and whose semantic score is positive, `_minmax` sees equal min and max and
returns the degenerate bounds `(0, 1)`, so `_norm` passes the raw value `5`
through — the "normalized" BM25 value is `5 ∉ [0, 1]`, and the fused final
score is `0.5*0.3 + 0.3*5 = 1.65`. -/
theorem claim_C3_counterexample :
    semanticAvailable [⟨"a", 5, 3/10, 0, 0, 0⟩] = true ∧
    nbmValue true [5] 5 = 5 ∧
    ¬(nbmValue true [5] 5 ≤ 1) ∧
    (fuse_articles [⟨"a", 5, 3/10, 0, 0, 0⟩]).map (fun r => r.final) = [33/20] := by
  with_unfolding_all decide

/-- C3 (amended): in `fuse`, each fused row's final score combines its own
raw semantic, vector and business scores (passed through unnormalized) with
the normalized BM25 value.  When some row has a positive semantic score and
the BM25 min and max of the candidate set are not `math.isclose`, the
normalized BM25 values of the set lie in `[0, 1]`; when they are close
(e.g. all equal, or a single row), the raw BM25 value is passed through
unchanged, which may lie outside `[0, 1]`; when no semantic score is
positive and the maximum raw BM25 score is positive, BM25 is divided by that
maximum instead. -/
theorem isclose_self (a : ℚ) : isclose a a = true := by
  simp only [isclose, sub_self, abs_zero, decide_eq_true_eq]
  positivity

theorem not_close_lt {a b : ℚ} (hab : a ≤ b) (h : isclose a b = false) : a < b := by
  rcases lt_or_eq_of_le hab with h1 | h1
  · exact h1
  · rw [h1, isclose_self] at h
    exact absurd h (by simp)

theorem nbmValue_semTrue (bs : List ℚ) (v : ℚ) :
    nbmValue true bs v = norm v (minmax bs) := by
  simp [nbmValue]

theorem nbmValue_semFalse_pos (bs : List ℚ) (v : ℚ) (h : 0 < maxOr0 bs) :
    nbmValue false bs v = v / maxOr0 bs := by
  simp [nbmValue, h]

theorem minmax_cons_not_close (b : ℚ) (bs : List ℚ)
    (h : isclose (pymin b bs) (pymax b bs) = false) :
    minmax (b :: bs) = (pymin b bs, pymax b bs) := by
  simp only [minmax]
  rw [if_neg (by simp [h])]

theorem minmax_cons_close (b : ℚ) (bs : List ℚ)
    (h : isclose (pymin b bs) (pymax b bs) = true) :
    minmax (b :: bs) = (0, 1) := by
  simp only [minmax]
  rw [if_pos (by simp [h])]

theorem isclose_zero_one : isclose (0 : ℚ) 1 = false := by
  simp only [isclose]
  norm_num

theorem norm_not_close {m M : ℚ} (v : ℚ) (h : isclose m M = false) :
    norm v (m, M) = (v - m) / (M - m) := by
  simp only [norm]
  rw [if_neg (by simp [h])]

theorem claim_C3_amended_bm25_normalization (w : Weights) (rows : List Row)
    (b : ℚ) (bs : List ℚ) (hbs : rows.map (fun r => r.bm25) = b :: bs) :
    (∀ r ∈ fuseScores w rows,
      r.final = (adjustWeights (semanticAvailable rows) w).semantic * r.semantic +
        (adjustWeights (semanticAvailable rows) w).bm25 *
          nbmValue (semanticAvailable rows) (b :: bs) r.bm25 +
        (adjustWeights (semanticAvailable rows) w).vector * r.vector +
        (adjustWeights (semanticAvailable rows) w).business * r.business) ∧
    (semanticAvailable rows = true → isclose (pymin b bs) (pymax b bs) = false →
      ∀ v ∈ b :: bs, 0 ≤ nbmValue (semanticAvailable rows) (b :: bs) v ∧
        nbmValue (semanticAvailable rows) (b :: bs) v ≤ 1) ∧
    (semanticAvailable rows = true → isclose (pymin b bs) (pymax b bs) = true →
      ∀ v, nbmValue (semanticAvailable rows) (b :: bs) v = v) ∧
    (semanticAvailable rows = false → 0 < pymax b bs →
      ∀ v, nbmValue (semanticAvailable rows) (b :: bs) v = v / pymax b bs) := by
  have hrows : rows ≠ [] := by
    intro h0
    subst h0
    simp at hbs
  refine ⟨?_, ?_, ?_, ?_⟩
  · intro r hr
    rw [fuseScores_ne_nil w rows hrows] at hr
    have hr2 := (sortDescBy_perm (fun r : Row => r.final) _).mem_iff.mp hr
    rcases List.mem_map.mp hr2 with ⟨r₀, _, hr0⟩
    rw [hbs] at hr0
    rw [← hr0]
    rfl
  · intro hsa hcl v hv
    have hlt : pymin b bs < pymax b bs :=
      not_close_lt (pymin_le b bs _ (pymax_mem b bs)) hcl
    rw [hsa, nbmValue_semTrue, minmax_cons_not_close b bs hcl, norm_not_close v hcl]
    constructor
    · exact div_nonneg (sub_nonneg.mpr (pymin_le b bs v hv)) (le_of_lt (sub_pos.mpr hlt))
    · rw [div_le_one (sub_pos.mpr hlt)]
      exact sub_le_sub_right (le_pymax b bs v hv) _
  · intro hsa hcl v
    rw [hsa, nbmValue_semTrue, minmax_cons_close b bs hcl, norm_not_close v isclose_zero_one]
    norm_num
  · intro hsa hpos v
    rw [hsa, nbmValue_semFalse_pos]
    · rfl
    · exact hpos

/-- Witness for C3 (amended): a concrete two-row set with distinct BM25
scores and a positive semantic score, whose normalized BM25 values land in
`[0, 1]`. -/
theorem claim_C3_amended_witness :
    (([⟨"a", 0, 1, 0, 0, 0⟩, ⟨"b", 2, 0, 0, 0, 0⟩] : List Row).map (fun r => r.bm25) =
      (0 : ℚ) :: [2]) ∧
    semanticAvailable [⟨"a", 0, 1, 0, 0, 0⟩, ⟨"b", 2, 0, 0, 0, 0⟩] = true ∧
    isclose (pymin 0 [2]) (pymax 0 [2]) = false ∧
    (0 ≤ nbmValue (semanticAvailable [⟨"a", 0, 1, 0, 0, 0⟩, ⟨"b", 2, 0, 0, 0, 0⟩]) (0 :: [2]) 2 ∧
      nbmValue (semanticAvailable [⟨"a", 0, 1, 0, 0, 0⟩, ⟨"b", 2, 0, 0, 0, 0⟩]) (0 :: [2]) 2 ≤ 1) :=
  ⟨rfl, by with_unfolding_all decide, by with_unfolding_all decide,
    (claim_C3_amended_bm25_normalization articleWeights
      [⟨"a", 0, 1, 0, 0, 0⟩, ⟨"b", 2, 0, 0, 0, 0⟩] 0 [2] (by rfl)).2.1
      (by with_unfolding_all decide) (by with_unfolding_all decide) 2 (by decide)⟩

/-!
### Pagination
-/

theorem totalPages_eq_ceil (n P : ℕ) (hP : 1 ≤ P) :
    (((n + P - 1) / P : ℕ) : ℤ) = ⌈(n : ℚ) / (P : ℚ)⌉ := by
  have hP0 : 0 < P := hP
  have hPQ : (0 : ℚ) < (P : ℚ) := by exact_mod_cast hP0
  have hmod := Nat.div_add_mod (n + P - 1) P
  have hr : (n + P - 1) % P < P := Nat.mod_lt _ hP0
  set q := (n + P - 1) / P with hq
  have h1 : n ≤ P * q := by omega
  have h2 : P * q < n + P := by omega
  symm
  rw [Int.ceil_eq_iff]
  constructor
  · push_cast
    rw [sub_lt_iff_lt_add, div_add' _ _ _ (ne_of_gt hPQ), lt_div_iff₀ hPQ]
    have h2' : (P : ℚ) * q < (n : ℚ) + P := by exact_mod_cast h2
    linarith
  · push_cast
    rw [div_le_iff₀ hPQ]
    have h1' : (n : ℚ) ≤ (P : ℚ) * q := by exact_mod_cast h1
    linarith

theorem pages_flatten_aux {α : Type} (P : ℕ) (hP : 1 ≤ P) :
    ∀ (n : ℕ) (l : List α), l.length ≤ n →
      ((List.range ((l.length + P - 1) / P)).map (fun i => (l.drop (i * P)).take P)).flatten =
        l := by
  intro n
  induction n with
  | zero =>
    intro l hl
    have h0 : l = [] := List.length_eq_zero.mp (Nat.le_zero.mp hl)
    subst h0
    simp
  | succ n ih =>
    intro l hl
    by_cases hnil : l = []
    · subst hnil; simp
    · have hlen : 1 ≤ l.length := by
        cases l with
        | nil => exact absurd rfl hnil
        | cons a t => simp
      have hq : (l.length + P - 1) / P = ((l.drop P).length + P - 1) / P + 1 := by
        rw [List.length_drop]
        rcases le_or_lt l.length P with hc | hc
        · have hdp : l.length - P = 0 := Nat.sub_eq_zero_of_le hc
          rw [hdp]
          have h0 : (0 + P - 1) / P = 0 := Nat.div_eq_of_lt (by omega)
          rw [h0]
          exact Nat.div_eq_of_lt_le (by omega) (by omega)
        · have h1 : l.length - P + P - 1 = l.length - 1 := by omega
          have h2 : l.length + P - 1 = l.length - 1 + P := by omega
          rw [h1, h2, Nat.add_div_right _ hP]
      rw [hq, List.range_succ_eq_map]
      simp only [List.map_cons, List.map_map, List.flatten_cons]
      rw [Nat.zero_mul, List.drop_zero]
      have hmapeq : (List.range (((l.drop P).length + P - 1) / P)).map
            ((fun i => (l.drop (i * P)).take P) ∘ Nat.succ) =
          (List.range (((l.drop P).length + P - 1) / P)).map
            (fun i => ((l.drop P).drop (i * P)).take P) := by
        apply List.map_congr_left
        intro i _
        show (l.drop (Nat.succ i * P)).take P = ((l.drop P).drop (i * P)).take P
        rw [List.drop_drop, Nat.succ_mul, Nat.add_comm (i * P) P]
      rw [hmapeq, ih (l.drop P) (by rw [List.length_drop]; omega)]
      exact List.take_append_drop P l

/-- C4: for every fused result list, enabled/threshold configuration and
page size `P ≥ 1`, the reported `total_results` is the size of the
threshold-filtered set (the filter runs on the full fused list, before
pagination), `total_pages = ceil(total_results / P)`, the returned page is
the slice `[i*P, i*P + P)` of the filtered list, and concatenating all pages
in order reproduces the filtered list exactly once each.  The filter drops
exactly the rows with `final < threshold`, and only when filtering is
enabled and the threshold is positive. -/
theorem claim_C4_pagination (enabled : Bool) (threshold : ℚ) (fused : List Row)
    (P : ℕ) (hP : 1 ≤ P) :
    (∀ i, (paginateFused enabled threshold fused i P).2.total_results =
      (applyScoreThreshold enabled threshold fused).length) ∧
    (∀ i, (((paginateFused enabled threshold fused i P).2.total_pages : ℕ) : ℤ) =
      ⌈((applyScoreThreshold enabled threshold fused).length : ℚ) / (P : ℚ)⌉) ∧
    (∀ i, (paginateFused enabled threshold fused i P).1 =
      ((applyScoreThreshold enabled threshold fused).drop (i * P)).take P) ∧
    ((List.range (paginateFused enabled threshold fused 0 P).2.total_pages).map
      (fun i => (paginateFused enabled threshold fused i P).1)).flatten =
      applyScoreThreshold enabled threshold fused ∧
    (enabled = true → 0 < threshold →
      applyScoreThreshold enabled threshold fused =
        fused.filter (fun r => decide (threshold ≤ r.final))) ∧
    (enabled = false ∨ threshold ≤ 0 → applyScoreThreshold enabled threshold fused = fused) := by
  refine ⟨fun i => rfl, fun i => ?_, fun i => rfl, ?_, ?_, ?_⟩
  · exact totalPages_eq_ceil (applyScoreThreshold enabled threshold fused).length P hP
  · exact pages_flatten_aux P hP (applyScoreThreshold enabled threshold fused).length
      (applyScoreThreshold enabled threshold fused) le_rfl
  · intro he ht
    simp only [applyScoreThreshold, he, Bool.not_true]
    rw [if_neg (by simp), if_neg (not_le.mpr ht)]
  · intro h
    rcases h with he | ht
    · simp only [applyScoreThreshold, he, Bool.not_false]
      rw [if_pos trivial]
    · simp only [applyScoreThreshold]
      by_cases he : enabled
      · simp only [he, Bool.not_true]
        rw [if_neg (by simp), if_pos ht]
      · simp only [Bool.not_eq_true] at he
        simp only [he, Bool.not_false]
        rw [if_pos trivial]

/-- Witness for C4: a concrete three-row fused list with threshold `0.5` and
page size 2 — the pages concatenate back to the two surviving rows. -/
theorem claim_C4_pagination_witness :
    1 ≤ 2 ∧
    ((List.range (paginateFused true (1/2)
        [⟨"a", 0, 0, 0, 0, 3/5⟩, ⟨"b", 0, 0, 0, 0, 2/5⟩, ⟨"c", 0, 0, 0, 0, 1⟩] 0 2).2.total_pages).map
      (fun i => (paginateFused true (1/2)
        [⟨"a", 0, 0, 0, 0, 3/5⟩, ⟨"b", 0, 0, 0, 0, 2/5⟩, ⟨"c", 0, 0, 0, 0, 1⟩] i 2).1)).flatten =
      applyScoreThreshold true (1/2)
        [⟨"a", 0, 0, 0, 0, 3/5⟩, ⟨"b", 0, 0, 0, 0, 2/5⟩, ⟨"c", 0, 0, 0, 0, 1⟩] :=
  ⟨by decide,
    (claim_C4_pagination true (1/2)
      [⟨"a", 0, 0, 0, 0, 3/5⟩, ⟨"b", 0, 0, 0, 0, 2/5⟩, ⟨"c", 0, 0, 0, 0, 1⟩] 2
      (by decide)).2.2.2.1⟩

/-!
### Chunk aggregation and the parent merge
-/

theorem updParentScores_lookup_same (acc : List (String × ℚ)) (pid : String) (s : ℚ) :
    (updParentScores acc pid s).lookup pid = omaxStep (acc.lookup pid) s := by
  induction acc with
  | nil => simp [updParentScores, List.lookup, omaxStep]
  | cons pv rest ih =>
    by_cases hp : pv.1 = pid
    · simp only [updParentScores]
      rw [if_pos hp]
      simp [List.lookup, hp, omaxStep]
    · simp only [updParentScores]
      rw [if_neg hp]
      have hbeq : (pid == pv.1) = false := by
        rw [beq_eq_false_iff_ne]
        exact fun h => hp h.symm
      simp only [List.lookup, hbeq]
      exact ih

theorem updParentScores_lookup_other (acc : List (String × ℚ)) (pid p : String) (s : ℚ)
    (h : p ≠ pid) : (updParentScores acc pid s).lookup p = acc.lookup p := by
  induction acc with
  | nil => simp [updParentScores, List.lookup, beq_eq_false_iff_ne.mpr h]
  | cons pv rest ih =>
    by_cases hp : pv.1 = pid
    · simp only [updParentScores]
      rw [if_pos hp]
      have hbeq : (p == pv.1) = false := by
        rw [beq_eq_false_iff_ne]
        rw [hp]
        exact h
      simp [List.lookup, hbeq]
    · simp only [updParentScores]
      rw [if_neg hp]
      by_cases hq : p = pv.1
      · simp [List.lookup, hq]
      · simp only [List.lookup, beq_eq_false_iff_ne.mpr hq]
        exact ih

theorem aggParents_foldl_lookup (pid : String) (hpid : pid ≠ "") (hits : List ChunkHit) :
    ∀ acc : List (String × ℚ),
      (hits.foldl (fun acc d => if d.parent_id = "" then acc
          else updParentScores acc d.parent_id d.score) acc).lookup pid =
        ((hits.filter (fun h => decide (h.parent_id = pid))).map (fun h => h.score)).foldl
          omaxStep (acc.lookup pid) := by
  induction hits with
  | nil => intro acc; rfl
  | cons d rest ih =>
    intro acc
    simp only [List.foldl_cons]
    by_cases hd : d.parent_id = ""
    · rw [if_pos hd]
      have hne : ¬(d.parent_id = pid) := by rw [hd]; exact fun h => hpid h.symm
      rw [List.filter_cons_of_neg (by simpa using hne)]
      exact ih acc
    · rw [if_neg hd]
      by_cases hp : d.parent_id = pid
      · rw [List.filter_cons_of_pos (by simpa using hp), List.map_cons, List.foldl_cons]
        rw [ih (updParentScores acc d.parent_id d.score)]
        rw [hp, updParentScores_lookup_same]
      · rw [List.filter_cons_of_neg (by simpa using hp)]
        rw [ih (updParentScores acc d.parent_id d.score)]
        rw [updParentScores_lookup_other acc d.parent_id pid d.score
          (fun h => hp h.symm)]

theorem foldl_omaxStep_some : ∀ (rest : List ℚ) (v : ℚ),
    rest.foldl omaxStep (some v) = some (pymax v rest)
  | [], v => rfl
  | s :: rest, v => by
    simp only [List.foldl_cons]
    have h1 : omaxStep (some v) s = some (max v s) := rfl
    rw [h1, foldl_omaxStep_some rest (max v s)]
    rfl

theorem foldl_omaxStep_none : ∀ scores : List ℚ, scores.foldl omaxStep none = chunkMax scores
  | [] => rfl
  | s :: rest => by
    simp only [List.foldl_cons]
    have h1 : omaxStep none s = some s := rfl
    rw [h1, foldl_omaxStep_some rest s]
    rfl

theorem aggParents_lookup (hits : List ChunkHit) (pid : String) (hpid : pid ≠ "") :
    (aggParents hits).lookup pid =
      chunkMax ((hits.filter (fun h => decide (h.parent_id = pid))).map (fun h => h.score)) := by
  rw [aggParents, aggParents_foldl_lookup pid hpid hits []]
  exact foldl_omaxStep_none _

theorem chunkMax_spec (scores : List ℚ) (m : ℚ) (h : chunkMax scores = some m) :
    m ∈ scores ∧ ∀ s ∈ scores, s ≤ m := by
  cases scores with
  | nil => exact absurd h (by simp [chunkMax])
  | cons v rest =>
    have hm : m = pymax v rest := by
      simpa [chunkMax] using h.symm
    subst hm
    exact ⟨pymax_mem v rest, le_pymax v rest⟩

theorem lookup_mem {α β : Type} [BEq α] [LawfulBEq α] (a : α) (b : β) :
    ∀ l : List (α × β), l.lookup a = some b → (a, b) ∈ l
  | [], h => absurd h (by simp [List.lookup])
  | (k, v) :: rest, h => by
    by_cases hk : a = k
    · have : (a == k) = true := beq_iff_eq.mpr hk
      simp only [List.lookup, this] at h
      have hv : v = b := Option.some_inj.mp h
      subst hv hk
      exact List.mem_cons_self _ _
    · have : (a == k) = false := beq_eq_false_iff_ne.mpr hk
      simp only [List.lookup, this] at h
      exact List.mem_cons_of_mem _ (lookup_mem a b rest h)

theorem updParentScores_keys_mem (pid : String) (s : ℚ) (x : String) :
    ∀ acc : List (String × ℚ),
      x ∈ (updParentScores acc pid s).map (fun pv => pv.1) →
      x ∈ acc.map (fun pv => pv.1) ∨ x = pid
  | [], h => by
    simp only [updParentScores, List.map_cons, List.map_nil] at h
    exact Or.inr (by simpa using h)
  | pv :: rest, h => by
    by_cases hp : pv.1 = pid
    · rw [updParentScores, if_pos hp] at h
      simp only [List.map_cons] at h ⊢
      rcases List.mem_cons.mp h with h1 | h1
      · exact Or.inl (List.mem_cons.mpr (Or.inl h1))
      · exact Or.inl (List.mem_cons_of_mem _ h1)
    · rw [updParentScores, if_neg hp] at h
      simp only [List.map_cons] at h ⊢
      rcases List.mem_cons.mp h with h1 | h1
      · exact Or.inl (List.mem_cons.mpr (Or.inl h1))
      · rcases updParentScores_keys_mem pid s x rest h1 with h2 | h2
        · exact Or.inl (List.mem_cons_of_mem _ h2)
        · exact Or.inr h2

theorem updParentScores_keys_nodup (pid : String) (s : ℚ) :
    ∀ acc : List (String × ℚ),
      (acc.map (fun pv => pv.1)).Nodup →
      ((updParentScores acc pid s).map (fun pv => pv.1)).Nodup
  | [], _ => by simp [updParentScores]
  | pv :: rest, h => by
    simp only [List.map_cons, List.nodup_cons] at h
    by_cases hp : pv.1 = pid
    · rw [updParentScores, if_pos hp]
      simp only [List.map_cons, List.nodup_cons]
      exact h
    · rw [updParentScores, if_neg hp]
      simp only [List.map_cons, List.nodup_cons]
      refine ⟨fun hmem => ?_, updParentScores_keys_nodup pid s rest h.2⟩
      rcases updParentScores_keys_mem pid s pv.1 rest hmem with h1 | h1
      · exact h.1 h1
      · exact hp h1

theorem aggParents_keys_nodup (hits : List ChunkHit) :
    ((aggParents hits).map (fun pv => pv.1)).Nodup := by
  rw [aggParents]
  have haux : ∀ (hs : List ChunkHit) (acc : List (String × ℚ)),
      (acc.map (fun pv => pv.1)).Nodup →
      ((hs.foldl (fun acc d => if d.parent_id = "" then acc
          else updParentScores acc d.parent_id d.score) acc).map (fun pv => pv.1)).Nodup := by
    intro hs
    induction hs with
    | nil => intro acc h; exact h
    | cons d rest ih =>
      intro acc h
      simp only [List.foldl_cons]
      by_cases hd : d.parent_id = ""
      · rw [if_pos hd]; exact ih acc h
      · rw [if_neg hd]
        exact ih _ (updParentScores_keys_nodup d.parent_id d.score acc h)
  exact haux hits [] (by simp)

theorem mergeVector_map_ids (rows : List Row) (pid : String) (v : ℚ) :
    (rows.map (fun r => if r.id = pid then { r with vector := max r.vector v } else r)).map
      (fun r => r.id) = rows.map (fun r => r.id) := by
  rw [List.map_map]
  apply List.map_congr_left
  intro r _
  by_cases h : r.id = pid
  · simp [h]
  · simp [h]

theorem mergeVector_preserve (pid : String) :
    ∀ (parents : List (String × ℚ)), (∀ pv ∈ parents, pv.1 ≠ pid) →
      ∀ (rows : List Row) (r : Row), r ∈ rows → r.id = pid → r ∈ mergeVector rows parents
  | [], _, rows, r, hr, _ => hr
  | pv :: rest, hnp, rows, r, hr, hid => by
    have hpv : pv.1 ≠ pid := hnp pv (List.mem_cons_self _ _)
    have hrest : ∀ q ∈ rest, q.1 ≠ pid := fun q hq => hnp q (List.mem_cons_of_mem _ hq)
    simp only [mergeVector, List.foldl_cons]
    by_cases hany : rows.any (fun x => x.id = pv.1)
    · rw [if_pos hany]
      refine mergeVector_preserve pid rest hrest _ r ?_ hid
      have hfix : (if r.id = pv.1 then { r with vector := max r.vector pv.2 } else r) = r := by
        rw [if_neg (by rw [hid]; exact fun h => hpv h.symm)]
      rw [← hfix]
      exact List.mem_map_of_mem _ hr
    · rw [if_neg hany]
      exact mergeVector_preserve pid rest hrest _ r (List.mem_append_left _ hr) hid

theorem mergeVector_update (pid : String) (v : ℚ) :
    ∀ (parents : List (String × ℚ)),
      ((parents.map (fun pv => pv.1)).Nodup) → (pid, v) ∈ parents →
      ∀ rows : List Row,
        (∀ r₀ ∈ rows, r₀.id = pid →
          ({ r₀ with vector := max r₀.vector v } : Row) ∈ mergeVector rows parents) ∧
        (pid ∉ rows.map (fun r => r.id) →
          (⟨pid, 0, 0, v, 0, 0⟩ : Row) ∈ mergeVector rows parents)
  | [], _, hmem, _ => absurd hmem (by simp)
  | pv :: rest, hnd, hmem, rows => by
    simp only [List.map_cons, List.nodup_cons] at hnd
    rcases List.mem_cons.mp hmem with hhead | htail
    · have hpv1 : pv.1 = pid := by rw [← hhead]
      have hpv2 : pv.2 = v := by rw [← hhead]
      have hrest : ∀ q ∈ rest, q.1 ≠ pid := by
        intro q hq hqe
        apply hnd.1
        rw [← hpv1] at hqe
        rw [← hqe]
        exact List.mem_map_of_mem _ hq
      constructor
      · intro r₀ hr₀ hid
        simp only [mergeVector, List.foldl_cons]
        have hany : rows.any (fun x => x.id = pv.1) = true := by
          rw [List.any_eq_true]
          exact ⟨r₀, hr₀, by simp [hid, hpv1]⟩
        rw [if_pos hany]
        apply mergeVector_preserve pid rest hrest
        · have : ({ r₀ with vector := max r₀.vector v } : Row) =
              (if r₀.id = pv.1 then { r₀ with vector := max r₀.vector pv.2 } else r₀) := by
            rw [if_pos (by rw [hid, hpv1]), hpv2]
          rw [this]
          exact List.mem_map_of_mem _ hr₀
        · exact hid
      · intro hno
        simp only [mergeVector, List.foldl_cons]
        have hany : rows.any (fun x => x.id = pv.1) = false := by
          rw [List.any_eq_false]
          intro r hr
          simp only [hpv1]
          simp only [decide_eq_true_eq]
          intro hre
          exact hno (hre ▸ List.mem_map_of_mem _ hr)
        rw [if_neg (by simp [hany])]
        apply mergeVector_preserve pid rest hrest
        · rw [hpv1, hpv2]
          exact List.mem_append_right _ (List.mem_cons_self _ _)
        · rfl
    · have hpv1 : pv.1 ≠ pid := by
        intro h
        apply hnd.1
        rw [h]
        have : pid ∈ rest.map (fun pv => pv.1) := by
          rw [← show (pid, v).1 = pid from rfl]
          exact List.mem_map_of_mem _ htail
        exact this
      have ih := mergeVector_update pid v rest hnd.2 htail
      constructor
      · intro r₀ hr₀ hid
        simp only [mergeVector, List.foldl_cons]
        by_cases hany : rows.any (fun x => x.id = pv.1)
        · rw [if_pos hany]
          refine (ih _).1 _ ?_ hid
          have hfix : (if r₀.id = pv.1 then { r₀ with vector := max r₀.vector pv.2 } else r₀)
              = r₀ := by
            rw [if_neg (by rw [hid]; exact fun h => hpv1 h.symm)]
          rw [← hfix]
          exact List.mem_map_of_mem _ hr₀
        · rw [if_neg hany]
          exact (ih _).1 r₀ (List.mem_append_left _ hr₀) hid
      · intro hno
        simp only [mergeVector, List.foldl_cons]
        by_cases hany : rows.any (fun x => x.id = pv.1)
        · rw [if_pos hany]
          refine (ih _).2 ?_
          rw [show (fun r : Row => r.id) = (fun r : Row => r.id) from rfl] at hno
          rw [mergeVector_map_ids]
          exact hno
        · rw [if_neg hany]
          refine (ih _).2 ?_
          rw [List.map_append]
          intro hmem2
          rcases List.mem_append.mp hmem2 with h1 | h1
          · exact hno h1
          · have h2 : pid = pv.1 := by simpa using h1
            exact hpv1 h2.symm

theorem mergeVector_ids_nodup :
    ∀ (parents : List (String × ℚ)) (rows : List Row),
      ((rows.map (fun r => r.id)).Nodup) →
      (((mergeVector rows parents).map (fun r => r.id)).Nodup)
  | [], rows, h => h
  | pv :: rest, rows, h => by
    simp only [mergeVector, List.foldl_cons]
    by_cases hany : rows.any (fun x => x.id = pv.1)
    · rw [if_pos hany]
      apply mergeVector_ids_nodup rest
      rw [mergeVector_map_ids]
      exact h
    · rw [if_neg hany]
      apply mergeVector_ids_nodup rest
      rw [List.map_append]
      rw [List.nodup_append]
      refine ⟨h, by simp, ?_⟩
      intro x hx hx2
      simp only [List.map_cons, List.map_nil, List.mem_singleton] at hx2
      subst hx2
      simp only [Bool.not_eq_true] at hany
      rw [List.any_eq_false] at hany
      rcases List.mem_map.mp hx with ⟨r, hr, hrid⟩
      have := hany r hr
      simp only [decide_eq_true_eq] at this
      exact this hrid

theorem buildIdToRow_ids_nodup (rows : List Row) :
    (((buildIdToRow rows).map (fun r => r.id)).Nodup) := by
  rw [buildIdToRow]
  have haux : ∀ (rs : List Row) (acc : List Row),
      ((acc.map (fun r => r.id)).Nodup) →
      (((rs.foldl (fun acc r =>
          if acc.any (fun x => x.id = r.id) then
            acc.map (fun x => if x.id = r.id then r else x)
          else acc ++ [r]) acc).map (fun r => r.id)).Nodup) := by
    intro rs
    induction rs with
    | nil => intro acc h; exact h
    | cons r rest ih =>
      intro acc h
      simp only [List.foldl_cons]
      by_cases hany : acc.any (fun x => x.id = r.id)
      · rw [if_pos hany]
        apply ih
        have hids : (acc.map (fun x => if x.id = r.id then r else x)).map (fun x => x.id) =
            acc.map (fun x => x.id) := by
          rw [List.map_map]
          apply List.map_congr_left
          intro x _
          by_cases hx : x.id = r.id
          · simp [hx]
          · simp [hx]
        rw [hids]
        exact h
      · rw [if_neg hany]
        apply ih
        rw [List.map_append, List.nodup_append]
        refine ⟨h, by simp, ?_⟩
        intro x hx hx2
        simp only [List.map_cons, List.map_nil, List.mem_singleton] at hx2
        subst hx2
        simp only [Bool.not_eq_true] at hany
        rw [List.any_eq_false] at hany
        rcases List.mem_map.mp hx with ⟨y, hy, hyid⟩
        have := hany y hy
        simp only [decide_eq_true_eq] at this
        exact this hyid
  exact haux rows [] (by simp)

/-- C2: chunk hits sharing a (non-falsy) `parent_id` aggregate to the
**maximum** chunk score (never a sum or average); merging into the
text-search rows takes the maximum of the existing vector score and the
aggregated chunk maximum for known ids and appends a placeholder row
otherwise; and the merged result contains exactly one row per unique
document id. -/
theorem claim_C2_chunk_aggregation_max (hits : List ChunkHit) (rows : List Row)
    (pid : String) (hpid : pid ≠ "") :
    ((aggParents hits).lookup pid =
      chunkMax ((hits.filter (fun h => decide (h.parent_id = pid))).map (fun h => h.score))) ∧
    (∀ m, chunkMax ((hits.filter (fun h => decide (h.parent_id = pid))).map
        (fun h => h.score)) = some m →
      m ∈ (hits.filter (fun h => decide (h.parent_id = pid))).map (fun h => h.score) ∧
      ∀ s ∈ (hits.filter (fun h => decide (h.parent_id = pid))).map (fun h => h.score),
        s ≤ m) ∧
    (∀ v, (aggParents hits).lookup pid = some v →
      (∀ r₀ ∈ buildIdToRow rows, r₀.id = pid →
        ({ r₀ with vector := max r₀.vector v } : Row) ∈
          mergeVector (buildIdToRow rows) (aggParents hits)) ∧
      (pid ∉ (buildIdToRow rows).map (fun r => r.id) →
        (⟨pid, 0, 0, v, 0, 0⟩ : Row) ∈ mergeVector (buildIdToRow rows) (aggParents hits))) ∧
    (((mergeVector (buildIdToRow rows) (aggParents hits)).map (fun r => r.id)).Nodup) := by
  refine ⟨aggParents_lookup hits pid hpid, fun m hm => chunkMax_spec _ m hm, ?_, ?_⟩
  · intro v hv
    have hmem := lookup_mem pid v (aggParents hits) hv
    exact mergeVector_update pid v (aggParents hits) (aggParents_keys_nodup hits) hmem _
  · exact mergeVector_ids_nodup (aggParents hits) (buildIdToRow rows)
      (buildIdToRow_ids_nodup rows)

/-- Witness for C2: the spec's own example — three chunks of one parent
scoring `[0.2, 0.9, 0.5]` aggregate to `vector = 0.9`. -/
theorem claim_C2_witness :
    ("p" : String) ≠ "" ∧
    (aggParents [⟨"p", 1/5⟩, ⟨"p", 9/10⟩, ⟨"p", 1/2⟩]).lookup "p" = some (9/10) ∧
    (aggParents [⟨"p", 1/5⟩, ⟨"p", 9/10⟩, ⟨"p", 1/2⟩]).lookup "p" =
      chunkMax ((([⟨"p", 1/5⟩, ⟨"p", 9/10⟩, ⟨"p", 1/2⟩] : List ChunkHit).filter
        (fun h => decide (h.parent_id = "p"))).map (fun h => h.score)) :=
  ⟨by decide, by with_unfolding_all decide,
    (claim_C2_chunk_aggregation_max [⟨"p", 1/5⟩, ⟨"p", 9/10⟩, ⟨"p", 1/2⟩] [] "p" (by decide)).1⟩

/-!
### The semantic-capability flag
-/

/-- C8: once the backend rejects a semantic request with the specific
semantic-not-available error, the `semantic_enabled` flag flips from `true`
to `false` and no operation ever sets it back to `true` for the remainder of
the process lifetime; within the request that observed the rejection the
text sub-query is retried in lexical-only mode and its rows are returned to
the caller (the failure is invisible), while any other error aborts the
request. -/
theorem claim_C8_semantic_flag_degradation :
    (∀ be : TextBackend, (runTextSearch false be).1 = false) ∧
    (∀ bes : List TextBackend, runRequests false bes = false) ∧
    (∀ (f : Bool) (be : TextBackend), (runTextSearch f be).1 = true → f = true) ∧
    (∀ (be : TextBackend) (rows : List Row), be.semantic = .errSemanticNotAvailable →
      be.lexical = .ok rows → runTextSearch true be = (false, .ok rows)) ∧
    (∀ be : TextBackend, be.semantic = .errSemanticNotAvailable →
      be.lexical = .errOther → runTextSearch true be = (false, .error ())) ∧
    (∀ be : TextBackend, be.semantic = .errOther →
      runTextSearch true be = (true, .error ())) ∧
    (∀ (flag : Bool) (be : TextBackend),
      (runArticleSubqueries flag be (.error ())).2 = .error ()) ∧
    (∀ (flag : Bool) (be : TextBackend) (rows : List Row) (chunks : List ChunkHit),
      (runTextSearch flag be).2 = .ok rows →
      runArticleSubqueries flag be (.ok chunks) =
        ((runTextSearch flag be).1, .ok (rows, chunks))) := by
  refine ⟨fun be => rfl, ?_, ?_, ?_, ?_, ?_, ?_, ?_⟩
  · intro bes
    induction bes with
    | nil => rfl
    | cons be rest ih =>
      show runRequests (runTextSearch false be).1 rest = false
      rw [show (runTextSearch false be).1 = false from rfl]
      exact ih
  · intro f be h
    cases f with
    | false => exact absurd h (by simp [runTextSearch])
    | true => rfl
  · intro be rows h1 h2
    simp [runTextSearch, h1, h2]
  · intro be h1 h2
    simp [runTextSearch, h1, h2]
  · intro be h1
    simp [runTextSearch, h1]
  · intro flag be
    simp only [runArticleSubqueries]
    cases (runTextSearch flag be).2 with
    | ok rows => rfl
    | error e => rfl
  · intro flag be rows chunks h
    simp only [runArticleSubqueries, h]

/-- Witness for C8: a backend that rejects the semantic query and serves the
lexical retry — the flag drops to `false` and the caller still receives the
rows. -/
theorem claim_C8_witness :
    (⟨SearchOutcome.errSemanticNotAvailable, SearchOutcome.ok []⟩ : TextBackend).semantic =
      SearchOutcome.errSemanticNotAvailable ∧
    (⟨SearchOutcome.errSemanticNotAvailable, SearchOutcome.ok []⟩ : TextBackend).lexical =
      SearchOutcome.ok [] ∧
    runTextSearch true ⟨SearchOutcome.errSemanticNotAvailable, SearchOutcome.ok []⟩ =
      (false, Except.ok []) :=
  ⟨rfl, rfl, claim_C8_semantic_flag_degradation.2.2.2.1
    ⟨SearchOutcome.errSemanticNotAvailable, SearchOutcome.ok []⟩ [] rfl rfl⟩

/-!
### The freshness scorer
-/

/-- C6: for every input that parses to a valid date, `business_freshness`
returns `exp(-ln 2 / halflife * max(age_days, 0)) ∈ (0, 1]`; a future date
(strictly newer than `now`) scores exactly `1`; missing or unparseable input
returns exactly `0`.  The function is total — the source wraps everything in
`try`/`except` and returns `0.0` on any error. -/
theorem claim_C6_freshness_bounds (input : DateInput) (now halflife : ℚ)
    (hhl : 0 < halflife) :
    (parse_business_date input = none → business_freshness input now halflife = 0) ∧
    (∀ t, parse_business_date input = some t →
      0 < business_freshness input now halflife ∧
      business_freshness input now halflife ≤ 1) ∧
    (∀ t, parse_business_date input = some t → now < t →
      business_freshness input now halflife = 1) := by
  refine ⟨?_, ?_, ?_⟩
  · intro h
    simp [business_freshness, h]
  · intro t ht
    simp only [business_freshness, ht]
    refine ⟨Real.exp_pos _, ?_⟩
    rw [Real.exp_le_one_iff, neg_mul]
    apply neg_nonpos_of_nonneg
    apply mul_nonneg
    · apply div_nonneg (le_of_lt (Real.log_pos (by norm_num)))
      have hhl' : (0 : ℝ) < (halflife : ℝ) := by exact_mod_cast hhl
      exact le_of_lt hhl'
    · have h0 : (0 : ℤ) ≤ max (⌊(now - t) / 86400⌋) 0 := le_max_right _ _
      exact_mod_cast h0
  · intro t ht hlt
    simp only [business_freshness, ht]
    have hfl : (⌊(now - t) / 86400⌋ : ℤ) < 0 := by
      have hneg : (now - t) / 86400 < 0 := by
        apply div_neg_of_neg_of_pos
        · exact sub_neg.mpr hlt
        · norm_num
      have := Int.floor_lt.mpr (show (now - t) / 86400 < ((0 : ℤ) : ℚ) by push_cast; exact hneg)
      exact this
    rw [max_eq_right (le_of_lt hfl)]
    simp [Real.exp_zero]

/-- Witness for C6: the date string `2100-01-01` parses, its timestamp is in
the future of `now = 0`, and the freshness score is exactly `1`. -/
theorem claim_C6_witness :
    (0 : ℚ) < freshnessHalflifeDays ∧
    parse_business_date (DateInput.atom (DateAtom.str "2100-01-01")) =
      some (civilToTs 2100 1 1 0) ∧
    (0 : ℚ) < civilToTs 2100 1 1 0 ∧
    business_freshness (DateInput.atom (DateAtom.str "2100-01-01")) 0 freshnessHalflifeDays
      = 1 := by
  have h1 : (0 : ℚ) < freshnessHalflifeDays := by norm_num [freshnessHalflifeDays]
  have hymd : parseYMD ("2100-01-01".data) = some (2100, 1, 1) := by decide
  have hsplit : splitBy (fun c => c = 'T') (spaceToT (trimList "2100-01-01".data)) =
      ["2100-01-01".data] := by decide
  have hiso : parseIsoLike (spaceToT (trimList "2100-01-01".data)) =
      some (civilToTs 2100 1 1 0) := by
    simp only [parseIsoLike, hsplit, hymd, Option.map_some']
  have hfal : falsyInput (DateInput.atom (DateAtom.str "2100-01-01")) = false := by decide
  have h2 : parse_business_date (DateInput.atom (DateAtom.str "2100-01-01")) =
      some (civilToTs 2100 1 1 0) := by
    simp only [parse_business_date, hfal, Bool.false_eq_true, if_false, parseAtom,
      parse_date_string, hiso]
  have hord : toOrdinal 2100 1 1 = 766645 := by decide
  have h3 : (0 : ℚ) < civilToTs 2100 1 1 0 := by
    rw [civilToTs, hord]
    norm_num
  exact ⟨h1, h2, h3,
    (claim_C6_freshness_bounds (DateInput.atom (DateAtom.str "2100-01-01")) 0
      freshnessHalflifeDays h1).2.2 (civilToTs 2100 1 1 0) h2 h3⟩

/-!
### Bounds of the SequenceMatcher dynamic program
-/

theorem flmRow_inv (oldmap : ℕ → ℕ) (alo blo ahi bhi i : ℕ)
    (hai : alo ≤ i) (hia : i < ahi) (hold : FlmInvMap alo blo i oldmap) :
    ∀ (js : List ℕ) (newmap : ℕ → ℕ) (best : FlmBest),
      (∀ j ∈ js, blo ≤ j ∧ j < bhi) →
      FlmInvMap alo blo (i + 1) newmap →
      FlmInvBest alo ahi blo bhi best →
      FlmInvMap alo blo (i + 1) (flmRow oldmap i js newmap best).1 ∧
      FlmInvBest alo ahi blo bhi (flmRow oldmap i js newmap best).2 := by
  intro js
  induction js with
  | nil => intro newmap best _ hnew hbest; exact ⟨hnew, hbest⟩
  | cons j js ih =>
    intro newmap best hjs newinv hbest
    have hjb := hjs j (List.mem_cons_self _ _)
    simp only [flmRow]
    apply ih
    · intro x hx; exact hjs x (List.mem_cons_of_mem _ hx)
    · -- the updated dictionary
      have hkb : 1 ≤ (if j = 0 then 1 else oldmap (j - 1) + 1) ∧
          (if j = 0 then 1 else oldmap (j - 1) + 1) ≤ j + 1 - blo ∧
          (if j = 0 then 1 else oldmap (j - 1) + 1) ≤ i + 1 - alo := by
        by_cases hj0 : j = 0
        · subst hj0
          rw [if_pos rfl]
          omega
        · rw [if_neg hj0]
          by_cases hm0 : oldmap (j - 1) = 0
          · rw [hm0]
            omega
          · have hb := hold (j - 1) hm0
            omega
      intro x hx
      by_cases hxj : x = j
      · subst hxj
        simp only [if_pos rfl] at hx ⊢
        exact ⟨hjb.1, hkb.2.1, hkb.2.2⟩
      · simp only [if_neg hxj] at hx ⊢
        exact newinv x hx
    · -- the updated best candidate
      by_cases hlt : best.bestsize < (if j = 0 then 1 else oldmap (j - 1) + 1)
      · rw [if_pos hlt]
        have hkb : 1 ≤ (if j = 0 then 1 else oldmap (j - 1) + 1) ∧
            (if j = 0 then 1 else oldmap (j - 1) + 1) ≤ j + 1 - blo ∧
            (if j = 0 then 1 else oldmap (j - 1) + 1) ≤ i + 1 - alo := by
          by_cases hj0 : j = 0
          · subst hj0
            rw [if_pos rfl]
            omega
          · rw [if_neg hj0]
            by_cases hm0 : oldmap (j - 1) = 0
            · rw [hm0]
              omega
            · have hb := hold (j - 1) hm0
              omega
        simp only [FlmInvBest]
        omega
      · rw [if_neg hlt]
        exact hbest

theorem flmRows_inv (a b : List Char) (alo ahi blo bhi : ℕ) :
    ∀ (cnt i : ℕ) (j2len : ℕ → ℕ) (best : FlmBest),
      alo ≤ i → i + cnt ≤ ahi →
      FlmInvMap alo blo i j2len →
      FlmInvBest alo ahi blo bhi best →
      FlmInvBest alo ahi blo bhi (flmRows a b blo bhi (List.range' i cnt) j2len best) := by
  intro cnt
  induction cnt with
  | zero => intro i j2len best _ _ _ hbest; exact hbest
  | succ n ih =>
    intro i j2len best hai hia hmap hbest
    have hrange : List.range' i (n + 1) = i :: List.range' (i + 1) n := rfl
    rw [hrange]
    simp only [flmRows]
    have hjs : ∀ j ∈ (b2jList b (a.getD i ' ')).filter
        (fun j => decide (blo ≤ j) && decide (j < bhi)), blo ≤ j ∧ j < bhi := by
      intro j hj
      have h2 := (List.mem_filter.mp hj).2
      rw [Bool.and_eq_true, decide_eq_true_eq, decide_eq_true_eq] at h2
      exact h2
    have hrow := flmRow_inv j2len alo blo ahi bhi i hai (by omega) hmap _ (fun _ => 0) best
      hjs (fun x hx => absurd rfl hx) hbest
    exact ih (i + 1) _ _ (by omega) (by omega) hrow.1 hrow.2

theorem extendLeft_inv (a b : List Char) (alo blo ahi bhi : ℕ) :
    ∀ (fuel : ℕ) (st : FlmBest), FlmInvBest alo ahi blo bhi st →
      FlmInvBest alo ahi blo bhi (extendLeft a b alo blo fuel st)
  | 0, st, h => h
  | fuel + 1, st, h => by
    simp only [extendLeft]
    by_cases hc : alo < st.besti ∧ blo < st.bestj ∧
        a.getD (st.besti - 1) ' ' = b.getD (st.bestj - 1) ' '
    · rw [if_pos hc]
      apply extendLeft_inv a b alo blo ahi bhi fuel
      simp only [FlmInvBest] at h ⊢
      omega
    · rw [if_neg hc]
      exact h

theorem extendRight_inv (a b : List Char) (ahi bhi alo blo : ℕ) :
    ∀ (fuel : ℕ) (st : FlmBest), FlmInvBest alo ahi blo bhi st →
      FlmInvBest alo ahi blo bhi (extendRight a b ahi bhi fuel st)
  | 0, st, h => h
  | fuel + 1, st, h => by
    simp only [extendRight]
    by_cases hc : st.besti + st.bestsize < ahi ∧ st.bestj + st.bestsize < bhi ∧
        a.getD (st.besti + st.bestsize) ' ' = b.getD (st.bestj + st.bestsize) ' '
    · rw [if_pos hc]
      apply extendRight_inv a b ahi bhi alo blo fuel
      simp only [FlmInvBest] at h ⊢
      omega
    · rw [if_neg hc]
      exact h

theorem find_longest_match_inv (a b : List Char) (alo ahi blo bhi : ℕ)
    (hA : alo ≤ ahi) (hB : blo ≤ bhi) :
    FlmInvBest alo ahi blo bhi (find_longest_match a b alo ahi blo bhi) := by
  unfold find_longest_match
  apply extendRight_inv
  apply extendLeft_inv
  apply flmRows_inv a b alo ahi blo bhi (ahi - alo) alo _ _ le_rfl (by omega)
    (fun x hx => absurd rfl hx)
  simp only [FlmInvBest]
  omega

theorem msumF_le (a b : List Char) :
    ∀ (fuel alo ahi blo bhi : ℕ), alo ≤ ahi → blo ≤ bhi →
      msumF a b fuel alo ahi blo bhi ≤ ahi - alo ∧
      msumF a b fuel alo ahi blo bhi ≤ bhi - blo
  | 0, alo, ahi, blo, bhi, _, _ => ⟨Nat.zero_le _, Nat.zero_le _⟩
  | fuel + 1, alo, ahi, blo, bhi, hA, hB => by
    simp only [msumF]
    by_cases hk : (find_longest_match a b alo ahi blo bhi).bestsize = 0
    · rw [if_pos hk]
      exact ⟨Nat.zero_le _, Nat.zero_le _⟩
    · rw [if_neg hk]
      have hinv := find_longest_match_inv a b alo ahi blo bhi hA hB
      simp only [FlmInvBest] at hinv
      obtain ⟨h1, h2, h3, h4⟩ := hinv
      have hL := msumF_le a b fuel alo (find_longest_match a b alo ahi blo bhi).besti
        blo (find_longest_match a b alo ahi blo bhi).bestj (by omega) (by omega)
      have hR := msumF_le a b fuel
        ((find_longest_match a b alo ahi blo bhi).besti +
          (find_longest_match a b alo ahi blo bhi).bestsize) ahi
        ((find_longest_match a b alo ahi blo bhi).bestj +
          (find_longest_match a b alo ahi blo bhi).bestsize) bhi (by omega) (by omega)
      obtain ⟨hL1, hL2⟩ := hL
      obtain ⟨hR1, hR2⟩ := hR
      constructor
      · omega
      · omega

theorem sm_matches_le (a b : List Char) :
    sm_matches a b ≤ a.length ∧ sm_matches a b ≤ b.length := by
  have h := msumF_le a b (a.length + b.length + 1) 0 a.length 0 b.length
    (Nat.zero_le _) (Nat.zero_le _)
  simpa [sm_matches] using h

theorem sm_ratio_nonneg (a b : List Char) : 0 ≤ sm_ratio a b := by
  unfold sm_ratio
  by_cases h : a.length + b.length = 0
  · rw [if_pos h]
    norm_num
  · rw [if_neg h]
    positivity

theorem sm_ratio_le_one (a b : List Char) : sm_ratio a b ≤ 1 := by
  unfold sm_ratio
  by_cases h : a.length + b.length = 0
  · rw [if_pos h]
  · rw [if_neg h]
    have hpos : (0 : ℚ) < (a.length : ℚ) + (b.length : ℚ) := by
      have h0 : 0 < a.length + b.length := Nat.pos_of_ne_zero h
      exact_mod_cast h0
    rw [div_le_one hpos]
    have hm := sm_matches_le a b
    have h1 : (sm_matches a b : ℚ) ≤ (a.length : ℚ) := by exact_mod_cast hm.1
    have h2 : (sm_matches a b : ℚ) ≤ (b.length : ℚ) := by exact_mod_cast hm.2
    linarith

/-!
### Bounds of the five scoring strategies
-/

theorem exact_match_score_bounds (qn nn : String) :
    0 ≤ exact_match_score qn nn ∧ exact_match_score qn nn ≤ 1 := by
  unfold exact_match_score
  by_cases h : qn = nn
  · rw [if_pos h]; norm_num
  · rw [if_neg h]; norm_num

theorem wordLoop_bounds (qw : String) : ∀ nws : List String,
    0 ≤ wordLoop qw nws ∧ wordLoop qw nws ≤ 1
  | [] => by simp [wordLoop]
  | nw :: rest => by
    simp only [wordLoop]
    by_cases h1 : 3 ≤ qw.length ∧ substrOf qw nw = true
    · rw [if_pos h1]; norm_num
    · rw [if_neg h1]
      by_cases h2 : 3 ≤ nw.length ∧ substrOf nw qw = true
      · rw [if_pos h2]; norm_num
      · rw [if_neg h2]
        by_cases h3 : 4/5 ≤ sm_ratio qw.data nw.data
        · rw [if_pos h3]
          exact ⟨sm_ratio_nonneg _ _, sm_ratio_le_one _ _⟩
        · rw [if_neg h3]
          exact wordLoop_bounds qw rest

theorem wordCredit_bounds (nws : List String) (qw : String) :
    0 ≤ wordCredit nws qw ∧ wordCredit nws qw ≤ 1 := by
  unfold wordCredit
  by_cases h : qw ∈ nws
  · rw [if_pos h]; norm_num
  · rw [if_neg h]; exact wordLoop_bounds qw nws

theorem list_sum_le_length_mul {l : List ℚ} (c : ℚ) (h : ∀ x ∈ l, x ≤ c) :
    l.sum ≤ (l.length : ℚ) * c := by
  induction l with
  | nil => simp
  | cons x rest ih =>
    simp only [List.sum_cons, List.length_cons]
    have h1 : x ≤ c := h x (List.mem_cons_self _ _)
    have h2 := ih (fun y hy => h y (List.mem_cons_of_mem _ hy))
    push_cast
    ring_nf
    nlinarith [h1, h2]

theorem word_match_score_bounds (qws nws : List String) :
    0 ≤ word_match_score qws nws ∧ word_match_score qws nws ≤ 1 := by
  unfold word_match_score
  by_cases h : qws ≠ [] ∧ nws ≠ []
  · rw [if_pos h]
    have hlen : 0 < qws.length := List.length_pos.mpr h.1
    have hlenQ : (0 : ℚ) < (qws.length : ℚ) := by exact_mod_cast hlen
    constructor
    · apply div_nonneg _ (le_of_lt hlenQ)
      apply List.sum_nonneg
      intro x hx
      rcases List.mem_map.mp hx with ⟨qw, _, hqw⟩
      rw [← hqw]
      exact (wordCredit_bounds nws qw).1
    · rw [div_le_one hlenQ]
      have hsum : (qws.map (wordCredit nws)).sum ≤
          ((qws.map (wordCredit nws)).length : ℚ) * 1 := by
        apply list_sum_le_length_mul
        intro x hx
        rcases List.mem_map.mp hx with ⟨qw, _, hqw⟩
        rw [← hqw]
        exact (wordCredit_bounds nws qw).2
      rw [List.length_map, mul_one] at hsum
      exact hsum
  · rw [if_neg h]; norm_num

theorem string_eq_empty_of_length {s : String} (h : s.length = 0) : s = "" := by
  cases s with
  | mk d =>
    have hd : d = [] := List.length_eq_zero.mp h
    subst hd
    rfl

theorem substring_score_bounds (qn nn : String) (ss : ℚ)
    (h : substring_score qn nn = some ss) : 0 ≤ ss ∧ ss ≤ 9/10 := by
  unfold substring_score at h
  by_cases h1 : substrOf qn nn = true
  · rw [if_pos h1] at h
    by_cases h2 : nn.length = 0
    · rw [if_pos h2] at h
      exact absurd h (by simp)
    · rw [if_neg h2] at h
      have hss : ss = 9/10 * ((qn.length : ℚ) / (nn.length : ℚ)) :=
        (Option.some_inj.mp h).symm
      have hinf : List.IsInfix qn.data nn.data := of_decide_eq_true h1
      have hlen : qn.length ≤ nn.length := hinf.length_le
      have hlenn : (0 : ℚ) < (nn.length : ℚ) := by
        have h0 : 0 < nn.length := Nat.pos_of_ne_zero h2
        exact_mod_cast h0
      have hdiv1 : (qn.length : ℚ) / (nn.length : ℚ) ≤ 1 := by
        rw [div_le_one hlenn]
        exact_mod_cast hlen
      have hdiv0 : 0 ≤ (qn.length : ℚ) / (nn.length : ℚ) := by positivity
      constructor
      · rw [hss]; linarith
      · rw [hss]; linarith
  · rw [if_neg h1] at h
    by_cases h3 : substrOf nn qn = true
    · rw [if_pos h3] at h
      by_cases h4 : qn.length = 0
      · rw [if_pos h4] at h
        exact absurd h (by simp)
      · rw [if_neg h4] at h
        have hss : ss = 8/10 * ((nn.length : ℚ) / (qn.length : ℚ)) :=
          (Option.some_inj.mp h).symm
        have hinf : List.IsInfix nn.data qn.data := of_decide_eq_true h3
        have hlen : nn.length ≤ qn.length := hinf.length_le
        have hlenq : (0 : ℚ) < (qn.length : ℚ) := by
          have h0 : 0 < qn.length := Nat.pos_of_ne_zero h4
          exact_mod_cast h0
        have hdiv1 : (nn.length : ℚ) / (qn.length : ℚ) ≤ 1 := by
          rw [div_le_one hlenq]
          exact_mod_cast hlen
        have hdiv0 : 0 ≤ (nn.length : ℚ) / (qn.length : ℚ) := by positivity
        constructor
        · rw [hss]; linarith
        · rw [hss]; linarith
    · rw [if_neg h3] at h
      have hss : ss = 0 := (Option.some_inj.mp h).symm
      rw [hss]
      norm_num

theorem initials_score_bounds (qws nws : List String) :
    0 ≤ initials_score qws nws ∧ initials_score qws nws ≤ 7/10 := by
  unfold initials_score
  by_cases h1 : qws.length ≤ 3 ∧ qws.length ≤ nws.length
  · rw [if_pos h1]
    by_cases h2 : ((qws.zip nws).all
        (fun p => decide (p.2.data.head? = p.1.data.head?))) = true
    · rw [if_pos h2]; norm_num
    · rw [if_neg h2]; norm_num
  · rw [if_neg h1]; norm_num

theorem combined_score_bounds (qn nn : String) (c : ℚ)
    (h : combined_score qn nn = some c) : 0 ≤ c ∧ c ≤ 1 := by
  unfold combined_score at h
  cases hss : substring_score qn nn with
  | none => rw [hss] at h; exact absurd h (by simp)
  | some ss =>
    rw [hss] at h
    simp only [Option.map_some', Option.some_inj] at h
    have hb1 := exact_match_score_bounds qn nn
    have hb2a := sm_ratio_nonneg qn.data nn.data
    have hb2b := sm_ratio_le_one qn.data nn.data
    have hb3 := word_match_score_bounds (wordsOf qn) (wordsOf nn)
    have hb4 := substring_score_bounds qn nn ss hss
    have hb5 := initials_score_bounds (wordsOf qn) (wordsOf nn)
    rw [← h]
    constructor
    · exact le_trans hb1.1 (le_max_left _ _)
    · apply max_le hb1.2
      apply max_le
      · unfold full_similarity
        nlinarith [hb2a, hb2b]
      apply max_le
      · nlinarith [hb3.1, hb3.2]
      apply max_le
      · nlinarith [hb4.1, hb4.2]
      · nlinarith [hb5.1, hb5.2]

theorem scoreAuthorNorm_le_one (qn nn : String) (s : ℚ)
    (h : scoreAuthorNorm qn nn = some s) : 1/5 < s → s ≤ 1 := by
  intro _
  unfold scoreAuthorNorm at h
  cases hc : combined_score qn nn with
  | none => rw [hc] at h; exact absurd h (by simp)
  | some c =>
    rw [hc] at h
    simp only [Option.map_some', Option.some_inj] at h
    have hb := combined_score_bounds qn nn c hc
    rw [← h]
    unfold bonusScore
    by_cases hcond : 1/2 < c ∧ nn.length ≤ qn.length + 5
    · rw [if_pos hcond]
      exact min_le_left _ _
    · rw [if_neg hcond]
      exact hb.2

theorem substring_score_isSome (qn nn : String) (h : ¬(qn = "" ∧ nn = "")) :
    ∃ ss, substring_score qn nn = some ss := by
  unfold substring_score
  by_cases h1 : substrOf qn nn = true
  · rw [if_pos h1]
    by_cases h2 : nn.length = 0
    · exfalso
      have hnn : nn = "" := string_eq_empty_of_length h2
      have hinf : List.IsInfix qn.data nn.data := of_decide_eq_true h1
      have hqd : qn.data = [] := by
        have hl := hinf.length_le
        rw [hnn] at hl
        simpa using List.length_eq_zero.mp (Nat.le_zero.mp hl)
      have hqn : qn = "" := by
        apply string_eq_empty_of_length
        have h0 : qn.data.length = 0 := by rw [hqd]; rfl
        exact h0
      exact h ⟨hqn, hnn⟩
    · rw [if_neg h2]
      exact ⟨_, rfl⟩
  · rw [if_neg h1]
    by_cases h3 : substrOf nn qn = true
    · rw [if_pos h3]
      by_cases h4 : qn.length = 0
      · exfalso
        apply h1
        have hqn : qn = "" := string_eq_empty_of_length h4
        rw [hqn]
        unfold substrOf
        rw [decide_eq_true_eq]
        exact List.nil_infix
      · rw [if_neg h4]
        exact ⟨_, rfl⟩
    · rw [if_neg h3]
      exact ⟨_, rfl⟩

theorem scoreAuthorNorm_isSome (qn nn : String) (h : ¬(qn = "" ∧ nn = "")) :
    ∃ s, scoreAuthorNorm qn nn = some s := by
  unfold scoreAuthorNorm combined_score
  rcases substring_score_isSome qn nn h with ⟨ss, hss⟩
  rw [hss]
  exact ⟨_, rfl⟩

theorem scoreAuthorNorm_exact (qn : String) (hne : ¬(qn = "" ∧ qn = "")) :
    scoreAuthorNorm qn qn = some 1 := by
  rcases substring_score_isSome qn qn hne with ⟨ss, hss⟩
  unfold scoreAuthorNorm combined_score
  rw [hss]
  simp only [Option.map_some', Option.some_inj]
  have hex : exact_match_score qn qn = 1 := by
    unfold exact_match_score
    rw [if_pos rfl]
  have hb2a := sm_ratio_nonneg qn.data qn.data
  have hb2b := sm_ratio_le_one qn.data qn.data
  have hb3 := word_match_score_bounds (wordsOf qn) (wordsOf qn)
  have hb4 := substring_score_bounds qn qn ss hss
  have hb5 := initials_score_bounds (wordsOf qn) (wordsOf qn)
  have hmax : max (exact_match_score qn qn)
      (max (full_similarity qn qn * (9/10))
        (max (word_match_score (wordsOf qn) (wordsOf qn) * (19/20))
          (max (ss * (17/20)) (initials_score (wordsOf qn) (wordsOf qn) * (7/10))))) = 1 := by
    apply le_antisymm
    · apply max_le (le_of_eq hex)
      apply max_le
      · unfold full_similarity
        nlinarith [hb2a, hb2b]
      apply max_le
      · nlinarith [hb3.1, hb3.2]
      apply max_le
      · nlinarith [hb4.1, hb4.2]
      · nlinarith [hb5.1, hb5.2]
    · rw [← hex]
      exact le_max_left _ _
  rw [hmax]
  unfold bonusScore
  rw [if_pos ⟨by norm_num, by omega⟩]
  norm_num

/-!
### The fuzzy-match candidate loop
-/

theorem matchLoop_mem_spec (qn : String) (authors : List Author) (ms : List (Author × ℚ))
    (h : matchLoop qn authors = some ms) :
    ∀ p ∈ ms, p.1 ∈ authors ∧ p.1.full_name ≠ "" ∧
      scoreAuthorNorm qn (normalize_text p.1.full_name) = some p.2 ∧ 1/5 < p.2 := by
  induction authors generalizing ms with
  | nil =>
    simp only [matchLoop, Option.some_inj] at h
    subst h
    simp
  | cons a rest ih =>
    simp only [matchLoop] at h
    by_cases hfn : a.full_name = ""
    · rw [if_pos hfn] at h
      intro p hp
      have hs := ih ms h p hp
      exact ⟨List.mem_cons_of_mem _ hs.1, hs.2⟩
    · rw [if_neg hfn] at h
      cases hs : scoreAuthorNorm qn (normalize_text a.full_name) with
      | none => rw [hs] at h; exact absurd h (by simp)
      | some s =>
        rw [hs] at h
        cases hrest : matchLoop qn rest with
        | none => rw [hrest] at h; exact absurd h (by simp)
        | some ms' =>
          rw [hrest] at h
          have h2 : (if 1/5 < s then (a, s) :: ms' else ms') = ms := Option.some_inj.mp h
          intro p hp
          by_cases hth : (1 : ℚ)/5 < s
          · rw [if_pos hth] at h2
            subst h2
            rcases List.mem_cons.mp hp with hp1 | hp1
            · subst hp1
              exact ⟨List.mem_cons_self _ _, hfn, hs, hth⟩
            · have hs2 := ih ms' hrest p hp1
              exact ⟨List.mem_cons_of_mem _ hs2.1, hs2.2⟩
          · rw [if_neg hth] at h2
            subst h2
            have hs2 := ih ms' hrest p hp
            exact ⟨List.mem_cons_of_mem _ hs2.1, hs2.2⟩

theorem fuzzy_match_mem_spec (q : String) (authors : List Author) (k : ℕ)
    (ms : List (Author × ℚ)) (hm : fuzzy_match_authors q authors k = some ms) :
    ∀ p ∈ ms, p.1 ∈ authors ∧ p.1.full_name ≠ "" ∧
      scoreAuthorNorm (normalize_text q) (normalize_text p.1.full_name) = some p.2 ∧
      1/5 < p.2 := by
  simp only [fuzzy_match_authors] at hm
  by_cases hempty : authors = []
  · rw [if_pos hempty] at hm
    have : ms = [] := (Option.some_inj.mp hm).symm
    subst this
    simp
  · rw [if_neg hempty] at hm
    cases hml : matchLoop (normalize_text q) authors with
    | none => rw [hml] at hm; exact absurd hm (by simp)
    | some ms₀ =>
      rw [hml] at hm
      have h2 : (sortDescBy (fun p => p.2) ms₀).take k = ms := by
        simpa using hm
      intro p hp
      rw [← h2] at hp
      have hp2 : p ∈ sortDescBy (fun p : Author × ℚ => p.2) ms₀ := List.mem_of_mem_take hp
      have hp3 : p ∈ ms₀ := (sortDescBy_perm _ _).mem_iff.mp hp2
      exact matchLoop_mem_spec _ authors ms₀ hml p hp3

/-- C10: on the authors search path every candidate row carries the fuzzy
score as `_bm25` and zeros elsewhere, so the all-semantic-zero
redistribution branch of `fuse` always fires, every fused author's final
score is `w_bm25 * (fuzzy_score / max_fuzzy_score)`, the top-ranked author's
final score is exactly the configured BM25 weight, and no author's final
score exceeds it. -/
theorem maxOr0_mem : ∀ {l : List ℚ}, l ≠ [] → maxOr0 l ∈ l
  | [], h => absurd rfl h
  | v :: rest, _ => pymax_mem v rest

theorem le_maxOr0 : ∀ {l : List ℚ} (v : ℚ), v ∈ l → v ≤ maxOr0 l
  | [], v, hv => absurd hv (by simp)
  | b :: rest, v, hv => le_pymax b rest v hv

theorem claim_C10_author_path_final_scores (w : Weights) (hw : 0 ≤ w.bm25)
    (q : String) (authors : List Author) (k : ℕ) (ms : List (Author × ℚ))
    (hm : fuzzy_match_authors q authors k = some ms) (hne : ms ≠ []) :
    semanticAvailable (authorRows ms) = false ∧
    0 < maxOr0 ((authorRows ms).map (fun r => r.bm25)) ∧
    (∀ r ∈ fuseScores w (authorRows ms),
      r.final = w.bm25 * (r.bm25 / maxOr0 ((authorRows ms).map (fun r => r.bm25)))) ∧
    ((fuseScores w (authorRows ms)).map (fun r => r.final)).head? = some w.bm25 ∧
    (∀ r ∈ fuseScores w (authorRows ms), r.final ≤ w.bm25) := by
  have hspec := fuzzy_match_mem_spec q authors k ms hm
  set rows := authorRows ms with hrows0
  have hrowmem : ∀ r ∈ rows, (1 : ℚ)/5 < r.bm25 ∧ r.semantic = 0 ∧ r.vector = 0 ∧
      r.business = 0 := by
    intro r hr
    rcases List.mem_map.mp hr with ⟨p, hp, hpr⟩
    rw [← hpr]
    exact ⟨(hspec p hp).2.2.2, rfl, rfl, rfl⟩
  have hrne : rows ≠ [] := by
    intro h0
    apply hne
    have : rows.length = 0 := by rw [h0]; rfl
    rw [hrows0] at this
    simp only [authorRows, List.length_map] at this
    exact List.length_eq_zero.mp this
  have hsa : semanticAvailable rows = false := by
    simp only [semanticAvailable]
    rw [List.any_eq_false]
    intro r hr
    simp only [(hrowmem r hr).2.1]
    simp
  set bs := rows.map (fun r => r.bm25) with hbs0
  have hbsne : bs ≠ [] := by
    intro h0
    apply hrne
    rw [hbs0] at h0
    exact List.map_eq_nil_iff.mp h0
  have hbmem : ∀ v ∈ bs, (1 : ℚ)/5 < v := by
    intro v hv
    rcases List.mem_map.mp hv with ⟨r, hr, hrv⟩
    rw [← hrv]
    exact (hrowmem r hr).1
  have hmax_pos : 0 < maxOr0 bs := by
    have h15 := hbmem _ (maxOr0_mem hbsne)
    linarith
  have hmax_ub : ∀ v ∈ bs, v ≤ maxOr0 bs := fun v hv => le_maxOr0 v hv
  have hfused : fuseScores w rows =
      sortFinalDesc (rows.map (recomputeFinal false bs (adjustWeights false w))) := by
    rw [fuseScores_ne_nil w rows hrne, hsa]
  have hperm : (fuseScores w rows).Perm
      (rows.map (recomputeFinal false bs (adjustWeights false w))) := by
    rw [hfused]
    exact sortDescBy_perm _ _
  have hfinal : ∀ r ∈ fuseScores w rows, r.final = w.bm25 * (r.bm25 / maxOr0 bs) := by
    intro r hr
    rcases List.mem_map.mp (hperm.mem_iff.mp hr) with ⟨r₀, hr₀, hrr⟩
    have hz := hrowmem r₀ hr₀
    rw [← hrr]
    rw [recomputeFinal_final]
    have hnbm : nbmValue false bs r₀.bm25 = r₀.bm25 / maxOr0 bs :=
      nbmValue_semFalse_pos bs r₀.bm25 hmax_pos
    have hbm : (recomputeFinal false bs (adjustWeights false w) r₀).bm25 = r₀.bm25 := rfl
    rw [hbm, hnbm, hz.2.1, hz.2.2.1, hz.2.2.2]
    simp only [adjustWeights, Bool.false_eq_true, if_false]
    ring
  have hle : ∀ r ∈ fuseScores w rows, r.final ≤ w.bm25 := by
    intro r hr
    rw [hfinal r hr]
    have hbmem2 : r.bm25 ∈ bs := by
      rcases List.mem_map.mp (hperm.mem_iff.mp hr) with ⟨r₀, hr₀, hrr⟩
      have : r.bm25 = r₀.bm25 := by rw [← hrr]; rfl
      rw [this, hbs0]
      exact List.mem_map_of_mem _ hr₀
    have hdiv : r.bm25 / maxOr0 bs ≤ 1 := by
      rw [div_le_one hmax_pos]
      exact hmax_ub _ hbmem2
    calc w.bm25 * (r.bm25 / maxOr0 bs) ≤ w.bm25 * 1 :=
          mul_le_mul_of_nonneg_left hdiv hw
      _ = w.bm25 := mul_one _
  have hexists : ∃ r ∈ fuseScores w rows, r.final = w.bm25 := by
    rcases List.mem_map.mp (maxOr0_mem hbsne) with ⟨r₀, hr₀, hrv⟩
    refine ⟨recomputeFinal false bs (adjustWeights false w) r₀, ?_, ?_⟩
    · exact hperm.mem_iff.mpr (List.mem_map_of_mem _ hr₀)
    · have hmem2 : recomputeFinal false bs (adjustWeights false w) r₀ ∈ fuseScores w rows :=
        hperm.mem_iff.mpr (List.mem_map_of_mem _ hr₀)
      rw [hfinal _ hmem2]
      have hbm : (recomputeFinal false bs (adjustWeights false w) r₀).bm25 = r₀.bm25 := rfl
      rw [hbm, hrv, div_self (ne_of_gt hmax_pos), mul_one]
  have hhead : ((fuseScores w rows).map (fun r => r.final)).head? = some w.bm25 := by
    cases hfs : fuseScores w rows with
    | nil =>
      exfalso
      rcases hexists with ⟨r, hr, _⟩
      rw [hfs] at hr
      exact absurd hr (by simp)
    | cons h0 t =>
      have hsorted : (fuseScores w rows).Pairwise (fun a b => b.final ≤ a.final) := by
        rw [hfused]
        exact sortDescBy_pairwise _ _
      rw [hfs] at hsorted
      rw [List.pairwise_cons] at hsorted
      have hh_le : h0.final ≤ w.bm25 := hle h0 (by rw [hfs]; exact List.mem_cons_self _ _)
      have hh_ge : w.bm25 ≤ h0.final := by
        rcases hexists with ⟨r, hr, hrf⟩
        rw [hfs] at hr
        rcases List.mem_cons.mp hr with hr1 | hr1
        · rw [← hrf, hr1]
        · rw [← hrf]
          exact hsorted.1 r hr1
      simp only [List.map_cons, List.head?]
      rw [le_antisymm hh_le hh_ge]
  exact ⟨hsa, hmax_pos, hfinal, hhead, hle⟩

theorem matchLoop_isSome (qn : String) :
    ∀ authors : List Author,
      (¬(qn = "" ∧ ∃ a ∈ authors, a.full_name ≠ "" ∧ normalize_text a.full_name = "")) →
      ∃ ms, matchLoop qn authors = some ms
  | [], _ => ⟨[], rfl⟩
  | a :: rest, hsafe => by
    simp only [matchLoop]
    have hrest : ¬(qn = "" ∧ ∃ a ∈ rest, a.full_name ≠ "" ∧ normalize_text a.full_name = "") := by
      rintro ⟨h1, a', ha', h2, h3⟩
      exact hsafe ⟨h1, a', List.mem_cons_of_mem _ ha', h2, h3⟩
    by_cases hfn : a.full_name = ""
    · rw [if_pos hfn]
      exact matchLoop_isSome qn rest hrest
    · rw [if_neg hfn]
      have hsome : ∃ s, scoreAuthorNorm qn (normalize_text a.full_name) = some s := by
        apply scoreAuthorNorm_isSome
        rintro ⟨h1, h2⟩
        exact hsafe ⟨h1, a, List.mem_cons_self _ _, hfn, h2⟩
      rcases hsome with ⟨s, hs⟩
      rw [hs]
      rcases matchLoop_isSome qn rest hrest with ⟨ms, hms⟩
      rw [hms]
      exact ⟨_, rfl⟩

/-- C5 (counterexample): when the query and a candidate's (truthy) name both
normalize to the empty string, strategy 4 divides by
`len(name_normalized) == 0` and the Python source raises
`ZeroDivisionError` instead of returning a match list (modelled as
`none`). -/
theorem claim_C5_counterexample :
    ("?" : String) ≠ "" ∧
    normalize_text "!!!" = "" ∧
    normalize_text "?" = "" ∧
    substring_score (normalize_text "!!!") (normalize_text "?") = none ∧
    fuzzy_match_authors "!!!" [⟨"x", "?"⟩] 5 = none := by
  with_unfolding_all decide

/-- C5 (amended): provided no scored candidate triggers the
`ZeroDivisionError` degenerate case (normalized query empty and some truthy
candidate name normalizing to empty), `_fuzzy_match_authors` returns at most
`k` pairs sorted by score descending, every returned score lies in
`(0.2, 1]`, every candidate whose combined score is `≤ 0.2` is excluded,
and an exact normalized-string match scores exactly `1.0`; in particular
`match("John Smith", [John Smith, xyz123], 5)` returns exactly the one
exact-match candidate at score `1.0`. -/
theorem claim_C5_amended_fuzzy_contract (query : String) (authors : List Author) (k : ℕ)
    (hsafe : ¬(normalize_text query = "" ∧
      ∃ a ∈ authors, a.full_name ≠ "" ∧ normalize_text a.full_name = "")) :
    (∃ res, fuzzy_match_authors query authors k = some res ∧
      res.length ≤ k ∧
      res.Pairwise (fun p q' => q'.2 ≤ p.2) ∧
      (∀ p ∈ res, 1/5 < p.2 ∧ p.2 ≤ 1) ∧
      (∀ a ∈ authors, ∀ s, scoreAuthor query a = some s → s ≤ 1/5 →
        ∀ s', (a, s') ∉ res) ∧
      (∀ a ∈ authors, a.full_name ≠ "" →
        normalize_text a.full_name = normalize_text query →
        scoreAuthor query a = some 1)) ∧
    fuzzy_match_authors "John Smith" [⟨"a1", "John Smith"⟩, ⟨"a2", "xyz123"⟩] 5 =
      some [(⟨"a1", "John Smith"⟩, 1)] := by
  constructor
  · have hexact : ∀ a ∈ authors, a.full_name ≠ "" →
        normalize_text a.full_name = normalize_text query →
        scoreAuthor query a = some 1 := by
      intro a ha hfn heq
      unfold scoreAuthor
      rw [heq]
      apply scoreAuthorNorm_exact
      rintro ⟨h1, _⟩
      exact hsafe ⟨h1, a, ha, hfn, heq.trans h1⟩
    by_cases hempty : authors = []
    · refine ⟨[], ?_, by simp, by simp, by simp, ?_, ?_⟩
      · simp [fuzzy_match_authors, hempty]
      · intro a ha
        rw [hempty] at ha
        exact absurd ha (by simp)
      · intro a ha
        rw [hempty] at ha
        exact absurd ha (by simp)
    · rcases matchLoop_isSome (normalize_text query) authors hsafe with ⟨ms, hms⟩
      have hfm : fuzzy_match_authors query authors k =
          some ((sortDescBy (fun p => p.2) ms).take k) := by
        simp only [fuzzy_match_authors, if_neg hempty, hms, Option.map_some']
      refine ⟨(sortDescBy (fun p => p.2) ms).take k, hfm, ?_, ?_, ?_, ?_, hexact⟩
      · rw [List.length_take]
        exact min_le_left _ _
      · exact (sortDescBy_pairwise (fun p : Author × ℚ => p.2) ms).sublist
          (List.take_sublist _ _)
      · intro p hp
        have hspec := fuzzy_match_mem_spec query authors k _ hfm p hp
        exact ⟨hspec.2.2.2,
          scoreAuthorNorm_le_one _ _ _ hspec.2.2.1 hspec.2.2.2⟩
      · intro a _ s hscore hle s' hmem
        have hspec := fuzzy_match_mem_spec query authors k _ hfm (a, s') hmem
        have heq : s' = s := by
          have h1 : scoreAuthorNorm (normalize_text query)
              (normalize_text a.full_name) = some s' := hspec.2.2.1
          have h2 : scoreAuthorNorm (normalize_text query)
              (normalize_text a.full_name) = some s := hscore
          exact Option.some_inj.mp (h1.symm.trans h2)
        have hgt : (1 : ℚ)/5 < s' := hspec.2.2.2
        rw [heq] at hgt
        exact absurd hle (not_le.mpr hgt)
  · with_unfolding_all decide

/-- Witness for C5 (amended): the spec's John Smith example satisfies the
no-degenerate-input precondition and returns exactly the exact match at
score `1.0`. -/
theorem claim_C5_witness :
    (¬(normalize_text "John Smith" = "" ∧
      ∃ a ∈ ([⟨"a1", "John Smith"⟩, ⟨"a2", "xyz123"⟩] : List Author),
        a.full_name ≠ "" ∧ normalize_text a.full_name = "")) ∧
    fuzzy_match_authors "John Smith" [⟨"a1", "John Smith"⟩, ⟨"a2", "xyz123"⟩] 5 =
      some [(⟨"a1", "John Smith"⟩, 1)] :=
  ⟨by with_unfolding_all decide,
    (claim_C5_amended_fuzzy_contract "John Smith"
      [⟨"a1", "John Smith"⟩, ⟨"a2", "xyz123"⟩] 5 (by with_unfolding_all decide)).2⟩

/-- C7 (counterexample): the bonus length condition in the source is
one-sided (`len(name_normalized) <= len(query_normalized) + 5`).  A 2-char
name against a 20-char query is *not* within 5 characters of the query
length, yet its combined score `0.95` is boosted to `min(1, 0.95*1.1) = 1`. -/
theorem claim_C7_counterexample :
    combined_score (normalize_text "ab ab ab ab ab ab ab") (normalize_text "ab") =
      some (19/20) ∧
    scoreAuthorNorm (normalize_text "ab ab ab ab ab ab ab") (normalize_text "ab") =
      some 1 ∧
    (normalize_text "ab ab ab ab ab ab ab").length = 20 ∧
    (normalize_text "ab").length = 2 ∧
    ¬((20 : ℤ) - 2 ≤ 5) ∧
    (19/20 : ℚ) ≠ 1 := by
  with_unfolding_all decide

/-- C7 (amended): the boost applies exactly when the combined score exceeds
`0.5` **and** the normalized name is at most 5 characters longer than the
normalized query (one-sided: arbitrarily shorter names still qualify); then
the score is multiplied by `1.1` and capped at `1.0`, and otherwise passes
through unchanged.  The final score never exceeds `1`. -/
theorem claim_C7_amended_bonus (qn nn : String) (base : ℚ)
    (hc : combined_score qn nn = some base) :
    scoreAuthorNorm qn nn = some (bonusScore qn nn base) ∧
    (1/2 < base → nn.length ≤ qn.length + 5 →
      scoreAuthorNorm qn nn = some (min 1 (base * (11/10)))) ∧
    (¬(1/2 < base) → scoreAuthorNorm qn nn = some base) ∧
    (qn.length + 5 < nn.length → scoreAuthorNorm qn nn = some base) ∧
    (∀ s, scoreAuthorNorm qn nn = some s → s ≤ 1) := by
  have hbase : scoreAuthorNorm qn nn = some (bonusScore qn nn base) := by
    unfold scoreAuthorNorm
    rw [hc, Option.map_some']
  have hb := combined_score_bounds qn nn base hc
  refine ⟨hbase, ?_, ?_, ?_, ?_⟩
  · intro h1 h2
    rw [hbase]
    unfold bonusScore
    rw [if_pos ⟨h1, h2⟩]
  · intro h1
    rw [hbase]
    unfold bonusScore
    rw [if_neg (fun hand => h1 hand.1)]
  · intro h1
    rw [hbase]
    unfold bonusScore
    rw [if_neg (fun hand => absurd hand.2 (not_le.mpr h1))]
  · intro s hs
    have heqs : s = bonusScore qn nn base := by
      rw [hbase] at hs
      exact Option.some_inj.mp hs.symm
    rw [heqs]
    unfold bonusScore
    by_cases hcond : 1/2 < base ∧ nn.length ≤ qn.length + 5
    · rw [if_pos hcond]
      exact min_le_left _ _
    · rw [if_neg hcond]
      exact hb.2

/-- Witness for C7 (amended): the exact match `ab`/`ab` has combined score
`1`, qualifies for the bonus, and stays capped at `1`. -/
theorem claim_C7_witness :
    combined_score "ab" "ab" = some 1 ∧
    scoreAuthorNorm "ab" "ab" = some (min 1 (1 * (11/10))) ∧
    scoreAuthorNorm "ab" "ab" = some 1 := by
  have hc : combined_score "ab" "ab" = some 1 := by with_unfolding_all decide
  have h2 := (claim_C7_amended_bonus "ab" "ab" 1 hc).2.1 (by norm_num) (by decide)
  refine ⟨hc, h2, ?_⟩
  rw [h2]
  norm_num

/-- Witness for C10: the default author weights and a single exact-match
author give a fused result whose only final score is the configured author
BM25 weight `0.4`. -/
theorem claim_C10_witness :
    (0 : ℚ) ≤ authorWeights.bm25 ∧
    fuzzy_match_authors "John Smith" [⟨"a1", "John Smith"⟩] 5 =
      some [(⟨"a1", "John Smith"⟩, 1)] ∧
    ((fuseScores authorWeights (authorRows [(⟨"a1", "John Smith"⟩, 1)])).map
      (fun r => r.final)).head? = some authorWeights.bm25 :=
  ⟨by norm_num [authorWeights], by with_unfolding_all decide,
    (claim_C10_author_path_final_scores authorWeights (by norm_num [authorWeights])
      "John Smith" [⟨"a1", "John Smith"⟩] 5 [(⟨"a1", "John Smith"⟩, 1)]
      (by with_unfolding_all decide) (by decide)).2.2.2.1⟩

end AzureSearch
